import Mathlib

/-!
Verification of the hierarchical folder/file storage engine of the
RABC file manager backend.

The development shallowly embeds the JavaScript source:

* `back-end/utils/storage.js` (the path/storage adapter) as string/segment
  functions `getFullPath`, `createDirectory`, `deleteDirectory`;
* `back-end/models/folder.model.js` (schema pre-save hooks) and
  `back-end/routes/folder.js` (the Express routes) as pure state
  transformers over a `St` record holding the folder documents, the file
  documents, the set of physical directories and the physical files.

Node's `path.join` is modelled by segment normalisation (`stepSeg`,
`normStack`); machine-level details that the claims do not touch (dates,
MIME types, buffer streaming) are omitted.  SHA-256 hashing of uploaded
bytes is modelled by an injective abstraction: file contents are `Nat`s
and the hash of a content is the content itself.
-/

namespace RABC

/-! ## Character-level string helpers (kernel-friendly replacements for
`String.splitOn`, `String.startsWith`, JS `String.prototype.includes`). -/

/-- Split a list of characters on `/`, keeping empty segments. -/
def splitChars : List Char → List (List Char)
  | [] => [[]]
  | c :: rest =>
    if c = '/' then [] :: splitChars rest
    else
      match splitChars rest with
      | [] => [[c]]
      | s :: ss => (c :: s) :: ss

/-- Split a path string into raw `/`-separated segments (may contain `""`). -/
def splitSegs (p : String) : List String :=
  (splitChars p.toList).map (fun cs => String.mk cs)

/-- Join segments with `/` (inverse direction of `splitSegs`). -/
def joinSegs : List String → String
  | [] => ""
  | [s] => s
  | s :: rest => s ++ "/" ++ joinSegs rest

/-- `strStartsWith s pre` : does `s` start with the string `pre`
(JS `String.prototype.startsWith`). -/
def strStartsWith (s pre : String) : Bool :=
  pre.toList.isPrefixOf s.toList

/-- `containsStr hay needle` : does `hay` contain `needle` as a substring
(JS `String.prototype.includes`). -/
def containsStr (hay needle : String) : Bool :=
  hay.toList.tails.any (fun t => needle.toList.isPrefixOf t)

/-- Is the path string absolute (starts with `/`)? -/
def isAbsStr (p : String) : Bool :=
  match p.toList with
  | [] => false
  | c :: _ => c = '/'

/-! ## Node `path.join` / `path.normalize` on segments.

The normalisation stack is kept in reverse order (head = last segment). -/

/-- One step of Node path normalisation: skip empty and `.` segments,
let `..` pop the previous real segment (capped at the root for absolute
paths, accumulated for relative ones). -/
def stepSeg (abs : Bool) (acc : List String) (seg : String) : List String :=
  if seg = "" ∨ seg = "." then acc
  else if seg = ".." then
    match acc with
    | [] => if abs then [] else [".."]
    | a :: rest => if a = ".." then seg :: a :: rest else rest
  else seg :: acc

/-- Fold `stepSeg` over a list of raw segments, starting from `init`. -/
def normStack (abs : Bool) (init : List String) (segs : List String) : List String :=
  segs.foldl (stepSeg abs) init

/-- Render a (reversed) normalised segment stack back to a path string. -/
def renderPath (abs : Bool) (stack : List String) : String :=
  let segs := stack.reverse
  if abs then "/" ++ joinSegs segs
  else if segs.isEmpty then "." else joinSegs segs

/-- The reversed normalised segment stack of `path.join a b`. -/
def joinStack (a b : String) : List String :=
  normStack (isAbsStr a) [] (splitSegs a ++ splitSegs b)

/-- Node `path.join a b` (two-argument form, as used throughout the code). -/
def pathJoin (a b : String) : String :=
  renderPath (isAbsStr a) (joinStack a b)

/-- Normalised segments of a single path, root-first. -/
def normSegsOf (p : String) : List String :=
  (normStack (isAbsStr p) [] (splitSegs p)).reverse

/-- Node `path.dirname` (on the raw string, no normalisation). -/
def dirnameStr (p : String) : String :=
  match (p.toList.reverse.dropWhile (fun c => c ≠ '/')) with
  | [] => "."
  | _ :: rest => if rest.isEmpty then "/" else String.mk rest.reverse

/-- Split a filename into (base, extension) the way Node `path.extname` and
`path.basename` do: the extension starts at the last dot, except that a
dot in first position starts no extension. -/
def lastDotSplit : List Char → Option (List Char × List Char)
  | [] => none
  | c :: rest =>
    match lastDotSplit rest with
    | some (b, e) => some (c :: b, e)
    | none => if c = '.' then some ([], '.' :: rest) else none

/-- The (basename-without-extension, extension) pair of a slash-free name. -/
def extPair (name : String) : String × String :=
  match lastDotSplit name.toList with
  | none => (name, "")
  | some (b, e) => if b.isEmpty then (name, "") else (String.mk b, String.mk e)

/-! ## Path/Storage adapter (`back-end/utils/storage.js`).

`STORAGE_ROOT` is `path.resolve(__dirname, "../storage")`, an absolute
path fixed at process start; the model represents it by a concrete
absolute string.  The physical directory tree is a list of absolute path
strings. -/

/-- The fixed absolute storage root (stands for
`path.resolve(__dirname, "../storage")`). -/
def STORAGE_ROOT : String := "/srv/back-end/storage"

/-- `getFullPath(relativePath)` from `storage.js`:
`path.join(STORAGE_ROOT, relativePath)` with a parametric root.
No containment check of any kind is performed. -/
def getFullPath (root : String) (relativePath : String) : String :=
  pathJoin root relativePath

/-- `createDirectory(relativePath)`: `mkdir -p` at the resolved path and
return it.  The source has no failure path and no containment check. -/
def createDirectory (root : String) (dirs : List String) (relativePath : String) :
    List String × String :=
  let full := getFullPath root relativePath
  (full :: dirs, full)

/-- Does `p` lie inside the directory subtree of `full` (segment-wise)? -/
def underPath (full p : String) : Bool :=
  decide (normSegsOf full <+: normSegsOf p)

/-- `deleteDirectory(relativePath)`: refuses when the resolved path equals
the root string or does not start with it; otherwise recursively removes
the subtree at the resolved path (modelled denotationally as dropping
every stored path under it). -/
def deleteDirectory (root : String) (dirs : List String) (relativePath : String) :
    Except String (List String) :=
  let fullPath := getFullPath root relativePath
  if fullPath = root ∨ strStartsWith fullPath root = false then
    .error "Attempted to delete protected directory"
  else
    .ok (dirs.filter (fun p => !underPath fullPath p))

/-- The resolved path lies inside the storage root (the property the spec
asserts for every resolution). -/
def insideRoot (root : String) (full : String) : Prop :=
  normSegsOf root <+: normSegsOf full

/-! ## Data model (`folder.model.js`, `file.model.js`, `user.model.js`).

Mongo ObjectIds are modelled by `Nat`, generated from a counter `nextId`
carried in the state (mongoose assigns a fresh id to every document at
construction time).  Timestamps are dropped except where a claim needs
"the field is set", which is modelled by a `Bool`. -/

inductive Role
  | admin
  | subAdmin
  | user
deriving Repr, DecidableEq

inductive ApprovalStatus
  | pending
  | approved
  | disapproved
deriving Repr, DecidableEq

structure AccessEntry where
  user : Nat
  permission : String
deriving Repr, DecidableEq

structure FolderRec where
  fid : Nat
  name : String
  parentFolder : Option Nat
  path : String
  depth : Nat
  createdBy : Nat
  isSystemFolder : Bool
  access : List AccessEntry
deriving Repr, DecidableEq

structure FileRec where
  fid : Nat
  filename : String
  originalFilename : String
  path : String
  size : Nat
  folder : Nat
  owner : Nat
  uploadedBy : Nat
  approvalStatus : ApprovalStatus
  approvedBy : Option Nat
  approvedAt : Bool
  version : Nat
  isCurrentVersion : Bool
  previousVersions : List Nat
  originalFile : Option Nat
  fileHash : Nat
  isDeleted : Bool
deriving Repr, DecidableEq

/-- The whole mutable world: the two document collections, the set of
physical directories (absolute paths), the physical files (absolute path
with abstract content), and the ObjectId counter. -/
structure St where
  folders : List FolderRec
  files : List FileRec
  dirs : List String
  fsFiles : List (String × Nat)
  nextId : Nat
deriving Repr, DecidableEq

def findFolder (folders : List FolderRec) (i : Nat) : Option FolderRec :=
  folders.find? (fun f => f.fid == i)

def findFile (files : List FileRec) (i : Nat) : Option FileRec :=
  files.find? (fun f => f.fid == i)

/-- `\w` of JS regexes: letters, digits, underscore. -/
def isWordChar (c : Char) : Bool :=
  c.isAlpha || c.isDigit || c = '_'

/-- Folder-schema name validator `/^[\w\-]+$/` (`folder.model.js`). -/
def strictFolderName (n : String) : Bool :=
  !n.isEmpty && n.toList.all (fun c => isWordChar c || c = '-')

/-- Folder-route name check `/^[\w\s\-().]+$/` (`routes/folder.js`, create).
`\s` is modelled by space, tab and newline. -/
def looseFolderName (n : String) : Bool :=
  !n.isEmpty && n.toList.all (fun c =>
    isWordChar c || c = ' ' || c = '\t' || c = '\n' || c = '-' || c = '(' || c = ')' || c = '.')

/-- File-schema filename validator `/^[\w\-. ()]+$/` (`file.model.js`). -/
def validFileName (n : String) : Bool :=
  !n.isEmpty && n.toList.all (fun c =>
    isWordChar c || c = '-' || c = '.' || c = ' ' || c = '(' || c = ')')

/-! ## Physical file store helpers. -/

def fsGet (fs : List (String × Nat)) (p : String) : Option Nat :=
  (fs.find? (fun e => e.1 == p)).map (fun e => e.2)

def fsHas (fs : List (String × Nat)) (p : String) : Bool :=
  fs.any (fun e => e.1 == p)

def fsEraseKey (fs : List (String × Nat)) (p : String) : List (String × Nat) :=
  fs.filter (fun e => e.1 ≠ p)

def fsPut (fs : List (String × Nat)) (p : String) (c : Nat) : List (String × Nat) :=
  (p, c) :: fsEraseKey fs p

/-! ## Folder Tree Manager.

`createFolder` is the composition of `router.post("/")` in
`routes/folder.js` with the `folderSchema.pre('save')` hooks of
`folder.model.js` (mongoose runs validation, then the user pre-save
hooks, then the insert against the unique `path` index).

`updateFolder` is `router.put("/:id")`; it uses `findByIdAndUpdate`,
which runs **no** document pre-save hook, so neither
`storage.moveDirectory` nor any depth recomputation happens there. -/

def setFolderPath (folders : List FolderRec) (i : Nat) (p : String) : List FolderRec :=
  folders.map (fun f => if f.fid == i then { f with path := p } else f)

/-- `updateChildPaths` from `routes/folder.js` (the recursive helper used
by the update route): for every child of `parentId`, store
`path.join(newParentPath, child.name)` via `findByIdAndUpdate` and
recurse.  The `Bool` is `false` when a write hit the unique `path` index
(the thrown error aborts the traversal but earlier writes persist).
`fuel` bounds the recursion depth; the source recurses unboundedly. -/
def updateChildPaths : Nat → List FolderRec → Nat → String → List FolderRec × Bool
  | 0, folders, _, _ => (folders, true)
  | fuel + 1, folders, parentId, newParentPath =>
    let children := folders.filter (fun f => f.parentFolder == some parentId)
    children.foldl
      (fun acc c =>
        match acc with
        | (fs', false) => (fs', false)
        | (fs', true) =>
          let np := pathJoin newParentPath c.name
          if fs'.any (fun g => g.fid ≠ c.fid ∧ g.path = np) then (fs', false)
          else updateChildPaths fuel (setFolderPath fs' c.fid np) c.fid np)
      (folders, true)

/-- `router.post("/")` (create folder) followed by the schema pre-save
hooks and the insert. -/
def createFolder (st : St) (name : String) (parentFolder : Option Nat)
    (creator : Nat) (role : Role) : St × Except String FolderRec :=
  if role ≠ Role.admin then (st, .error "Forbidden") else
  if !looseFolderName name then (st, .error "Invalid characters in folder name") else
  -- route-level path computation, used only for the conflict pre-check
  let routePath? : Except String String :=
    match parentFolder with
    | some pid =>
      match findFolder st.folders pid with
      | none => .error "Parent folder not found"
      | some parent => .ok (pathJoin parent.path name)
    | none => .ok (pathJoin "/" name)
  match routePath? with
  | .error e => (st, .error e)
  | .ok routePath =>
    if st.folders.any (fun f => f.path = routePath) then
      (st, .error "Folder path already exists")
    else
      -- save(): validation first
      if !strictFolderName name then (st, .error "ValidationError") else
      -- pre('save') hook: recompute depth and path from the parent
      let dp : Nat × String :=
        match parentFolder with
        | some pid =>
          match findFolder st.folders pid with
          | some parent => (parent.depth + 1, parent.path ++ "/" ++ name)
          | none => (0, name)
        | none => (0, name)
      -- pre('save') hook: storage.createDirectory(this.path)
      let dirs' := getFullPath STORAGE_ROOT dp.2 :: st.dirs
      -- insert against the unique `path` index
      if st.folders.any (fun f => f.path = dp.2) then
        ({ st with dirs := dirs' }, .error "E11000 duplicate folder path")
      else
        let rec0 : FolderRec :=
          { fid := st.nextId, name := name, parentFolder := parentFolder,
            path := dp.2, depth := dp.1, createdBy := creator,
            isSystemFolder := false, access := [] }
        ({ st with folders := st.folders ++ [rec0], dirs := dirs',
                   nextId := st.nextId + 1 },
         .ok rec0)

/-- JS truthiness of `req.body.name`: an empty-string name counts as
absent. -/
def truthyName : Option String → Option String
  | some "" => none
  | x => x

/-- `router.put("/:id")` (rename / move / metadata update).
`newName = some n` models a request body with a (truthy) `name`;
`parentUpdate = some none` models `parentFolder: null` (move to root),
`parentUpdate = some (some pid)` a move under `pid`, and
`parentUpdate = none` an absent `parentFolder` field. -/
def updateFolder (st : St) (fid : Nat) (actor : Nat) (role : Role)
    (newName : Option String) (parentUpdate : Option (Option Nat)) :
    St × Except String FolderRec :=
  let newName := truthyName newName
  match findFolder st.folders fid with
  | none => (st, .error "Folder not found")
  | some folder =>
    if ¬(role = Role.admin ∨ folder.createdBy = actor) then
      (st, .error "Not authorized")
    else
      let upd? : Except String (Option (Option Nat) × Option String) :=
        match parentUpdate with
        | some none =>
          .ok (some none, some ("/" ++ (newName.getD folder.name)))
        | some (some pid) =>
          match findFolder st.folders pid with
          | none => .error "Parent folder not found"
          | some newParent =>
            if containsStr newParent.path folder.path then
              .error "Cannot move folder into itself or its children"
            else
              .ok (some (some pid), some (pathJoin newParent.path (newName.getD folder.name)))
        | none =>
          match newName with
          | some n =>
            match folder.parentFolder with
            | some p =>
              match findFolder st.folders p with
              | some pf => .ok (none, some (pathJoin pf.path n))
              | none => .error "Update failed"
            | none => .ok (none, some (pathJoin "/" n))
          | none => .ok (none, none)
      match upd? with
      | .error e => (st, .error e)
      | .ok (parentNew, pathNew) =>
        -- findByIdAndUpdate with runValidators: name must satisfy the schema
        if (match newName with | some n => !strictFolderName n | none => false) then
          (st, .error "Update failed")
        else if (match pathNew with
                 | some p => st.folders.any (fun g => g.fid ≠ fid ∧ g.path = p)
                 | none => false) then
          (st, .error "Update failed")
        else
          let folders1 := st.folders.map (fun g =>
            if g.fid == fid then
              { g with name := newName.getD g.name,
                       parentFolder := parentNew.getD g.parentFolder,
                       path := pathNew.getD g.path }
            else g)
          let updated : FolderRec :=
            { folder with name := newName.getD folder.name,
                          parentFolder := parentNew.getD folder.parentFolder,
                          path := pathNew.getD folder.path }
          match pathNew with
          | none => ({ st with folders := folders1 }, .ok updated)
          | some p =>
            match updateChildPaths st.folders.length folders1 fid p with
            | (folders2, true) => ({ st with folders := folders2 }, .ok updated)
            | (folders2, false) => ({ st with folders := folders2 }, .error "Update failed")

/-! ## File Version Manager (`file.model.js`, `routes/folder.js`).

Uploaded bytes are abstracted to a `Nat` content; `crypto.sha256` is an
injective function of the bytes, modelled by the identity.  The process
working directory (`process.cwd()`, against which Node resolves relative
paths given to `fs` functions) is passed explicitly where the source
hands a stored path straight to `fs` (`restoreFile`). -/

/-- `fileSchema.statics.generateVersionedName` (number format): version 1
keeps the original name, version `N > 1` inserts `(N-1)` before the
extension.  The source also has a `date` format (current date suffix),
which the collision loop never uses and which no claim touches. -/
def generateVersionedName (originalName : String) (version : Nat) : String :=
  if version = 1 then originalName
  else
    let be := extPair originalName
    be.1 ++ "(" ++ toString (version - 1) ++ ")" ++ be.2

/-- `validateFolderAccess` from `routes/folder.js`: the folder if the user
created it or appears in its access list (the `isPublic` clause of the
query matches no document, the schema has no such field). -/
def validateFolderAccess (folders : List FolderRec) (folderId userId : Nat) :
    Option FolderRec :=
  (findFolder folders folderId).bind (fun f =>
    if f.createdBy = userId ∨ f.access.any (fun a => a.user == userId) then some f
    else none)

/-- `document.save()` on a **new** `File`: mongoose validation, then the
`fileSchema.pre('save')` hook (folder check, directory creation, path
overwrite `path.join(folder.path, filename)`, hash recomputation from the
bytes on disk), then the insert checked against the three unique indexes
(`path`, `(folder, filename)`, `fileHash`). -/
def fileSaveNew (st : St) (f : FileRec) : St × Except String FileRec :=
  if !validFileName f.filename then (st, .error "ValidationError") else
  match findFolder st.folders f.folder with
  | none => (st, .error "Folder does not exist")
  | some fo =>
    let dirAbs := getFullPath STORAGE_ROOT fo.path
    let dirs1 := if st.dirs.contains dirAbs then st.dirs else dirAbs :: st.dirs
    let path1 := pathJoin fo.path f.filename
    let hash1 := (fsGet st.fsFiles (getFullPath STORAGE_ROOT path1)).getD f.fileHash
    let f1 := { f with path := path1, fileHash := hash1 }
    if st.files.any (fun g => g.path = path1) then
      ({ st with dirs := dirs1 }, .error "E11000 duplicate file path")
    else if st.files.any (fun g => g.folder = f1.folder ∧ g.filename = f1.filename) then
      ({ st with dirs := dirs1 }, .error "E11000 duplicate folder-filename")
    else if st.files.any (fun g => g.fileHash = hash1) then
      ({ st with dirs := dirs1 }, .error "E11000 duplicate fileHash")
    else
      ({ st with dirs := dirs1, files := st.files ++ [f1] }, .ok f1)

inductive UploadOutcome
  | uploaded (r : FileRec)
  | duplicate (r : FileRec)
  | skipped
deriving Repr, DecidableEq

/-- Membership test of the `(folderId, originalname)` lineage: same
folder, same original filename, not soft-deleted. -/
def keyP (folderId : Nat) (originalname : String) (g : FileRec) : Bool :=
  g.folder == folderId && g.originalFilename == originalname && !g.isDeleted

/-- The file documents in `folderId` sharing `originalname`, soft-deleted
records excluded (the query driving the upload's version computation). -/
def existingVersionsOf (files : List FileRec) (folderId : Nat) (originalname : String) :
    List FileRec :=
  files.filter (keyP folderId originalname)

/-- The next version number an upload computes: `1` for a fresh lineage,
otherwise one more than the maximal existing version. -/
def nextVersionOf (files : List FileRec) (folderId : Nat) (originalname : String) : Nat :=
  let ex := existingVersionsOf files folderId originalname
  if ex.isEmpty then 1 else ex.foldl (fun m g => max m g.version) 0 + 1

/-- The element `existingVersions[0]` of the upload route: the (first)
record of maximal version in the lineage. -/
def topVersionOf (files : List FileRec) (folderId : Nat) (originalname : String) :
    Option FileRec :=
  (existingVersionsOf files folderId originalname).foldl
    (fun acc g =>
      match acc with
      | none => some g
      | some a => if g.version > a.version then some g else some a)
    none

/-- The `updateMany` of the upload route: demote every non-deleted record
of the `(folder, originalFilename)` lineage other than the new record. -/
def demoteOthers (originalname : String) (folderId savedFid : Nat) (g : FileRec) : FileRec :=
  if g.originalFilename == originalname && g.folder == folderId &&
     g.fid != savedFid && !g.isDeleted then
    { g with isCurrentVersion := false }
  else g

/-- The second save of the upload route: back-fill `previousVersions` on
the new record. -/
def setPrev (savedFid : Nat) (prev : List Nat) (g : FileRec) : FileRec :=
  if g.fid == savedFid then { g with previousVersions := prev } else g

/-- The per-file body of `router.post("/:id/files")` (upload): versioned
naming, the collision check whose retry loop assigns to the `const`
`versionedName` (a guaranteed `TypeError` at line 704 of
`routes/folder.js`), the physical-conflict skip, folder-scoped duplicate
detection by hash, the move from staging, the save, and the demotion of
the previous versions. -/
def uploadFile (st : St) (folderId : Nat) (originalname : String)
    (content size uploader : Nat) (role : Role) : St × Except String UploadOutcome :=
  match findFolder st.folders folderId with
  | none => (st, .error "Folder not found")
  | some folder =>
    let hasAccess := role = Role.admin ∨ folder.createdBy = uploader ∨
      folder.access.any (fun a => a.user == uploader && (a.permission == "write" || a.permission == "admin"))
    if ¬hasAccess then (st, .error "Write access required") else
    let isAutoApproved := role = Role.admin ∨ role = Role.subAdmin
    let approvalStatus := if isAutoApproved then ApprovalStatus.approved else ApprovalStatus.pending
    let dirPath := pathJoin STORAGE_ROOT folder.path
    let st1 := if st.dirs.contains dirPath then st else { st with dirs := dirPath :: st.dirs }
    let existingVersions := existingVersionsOf st.files folderId originalname
    let nextVersion := nextVersionOf st.files folderId originalname
    let versionedName := generateVersionedName originalname nextVersion
    if st.files.any (fun g =>
        g.folder == folderId && g.filename == versionedName && !g.isDeleted) then
      -- the collision branch reassigns the `const versionedName`:
      -- the request dies with a TypeError before anything is written
      (st1, .error "TypeError: Assignment to constant variable")
    else
    let finalPath := pathJoin dirPath versionedName
    if fsHas st.fsFiles finalPath then (st1, .ok .skipped) else
    let fileHash := content
    match st.files.find? (fun g =>
        g.folder == folderId && g.fileHash == fileHash && !g.isDeleted) with
    | some dup => (st1, .ok (.duplicate dup))
    | none =>
      -- fsp.rename(staging, finalPath)
      let st2 := { st1 with fsFiles := fsPut st.fsFiles finalPath content }
      let newRec : FileRec :=
        { fid := st.nextId, filename := versionedName, originalFilename := originalname,
          path := finalPath, size := size, folder := folderId, owner := uploader,
          uploadedBy := uploader, approvalStatus := approvalStatus,
          approvedBy := if isAutoApproved then some uploader else none,
          approvedAt := isAutoApproved, version := nextVersion,
          isCurrentVersion := true, previousVersions := [],
          originalFile := (topVersionOf st.files folderId originalname).map
            (fun t => t.originalFile.getD t.fid),
          fileHash := fileHash, isDeleted := false }
      match fileSaveNew { st2 with nextId := st.nextId + 1 } newRec with
      | (st3, .error e) => (st3, .error e)
      | (st3, .ok saved) =>
        if existingVersions.isEmpty then (st3, .ok (.uploaded saved))
        else
          let prev := existingVersions.map (fun g => g.fid)
          let files' := st3.files.map (demoteOthers originalname folderId saved.fid)
          let files'' := files'.map (setPrev saved.fid prev)
          ({ st3 with files := files'' },
           .ok (.uploaded { saved with previousVersions := prev }))

/-- `router.post("/files/:id/restore")`: copy an old version to a new
record at `currentVersion + 1`.  `cwd` is the process working directory
against which `fsp.copyFile` resolves the stored (storage-relative)
paths. -/
def restoreFile (st : St) (cwd : String) (targetId actor : Nat) (role : Role) :
    St × Except String FileRec :=
  match findFile st.files targetId with
  | none => (st, .error "Version not found")
  | some vR =>
    let hasAccess := role = Role.admin ∨ vR.owner = actor ∨
      (validateFolderAccess st.folders vR.folder actor).isSome
    if ¬hasAccess then (st, .error "Access denied") else
    match st.files.find? (fun g =>
        g.originalFile == some (vR.originalFile.getD vR.fid) && g.isCurrentVersion) with
    | none => (st, .error "Current version not found")
    | some currentVersion =>
      let newVersionNum := currentVersion.version + 1
      let newPath := pathJoin (dirnameStr vR.path)
        (generateVersionedName vR.originalFilename newVersionNum)
      let srcAbs := if isAbsStr vR.path then vR.path else pathJoin cwd vR.path
      let dstAbs := if isAbsStr newPath then newPath else pathJoin cwd newPath
      match fsGet st.fsFiles srcAbs with
      | none => (st, .error "ENOENT: copyFile")
      | some c =>
        let st1 := { st with fsFiles := fsPut st.fsFiles dstAbs c }
        let newVersion : FileRec :=
          { vR with fid := st1.nextId, version := newVersionNum,
                    isCurrentVersion := true,
                    previousVersions := currentVersion.previousVersions ++ [currentVersion.fid],
                    path := newPath }
        match fileSaveNew { st1 with nextId := st1.nextId + 1 } newVersion with
        | (st2, .error e) => (st2, .error e)
        | (st2, .ok saved) =>
          let files' := st2.files.map (fun g =>
            if (g.fid == vR.fid || g.fid == currentVersion.fid) &&
               g.originalFilename == vR.originalFilename then
              { g with isCurrentVersion := false }
            else g)
          ({ st2 with files := files' }, .ok saved)

/-- `router.delete("/files/:id")`: unlink the physical object (ENOENT
tolerated), then `file.deleteOne()` whose pre-hook calls the nonexistent
`storage.unlink` only when the object still exists at the stored path. -/
def deleteFileRoute (st : St) (fileId actor : Nat) (role : Role) :
    St × Except String Unit :=
  match findFile st.files fileId with
  | none => (st, .error "File not found")
  | some file =>
    let hasAccess := role = Role.admin ∨ file.owner = actor ∨
      (validateFolderAccess st.folders file.folder actor).isSome
    if ¬hasAccess then (st, .error "Access denied") else
    let fullPath := pathJoin STORAGE_ROOT file.path
    if strStartsWith fullPath (STORAGE_ROOT ++ "/") = false then
      (st, .error "Invalid file path")
    else
      let st1 := { st with fsFiles := fsEraseKey st.fsFiles fullPath }
      if fsHas st1.fsFiles (getFullPath STORAGE_ROOT file.path) then
        (st1, .error "TypeError: storage.unlink is not a function")
      else
        ({ st1 with files := st1.files.filter (fun g => g.fid ≠ fileId) }, .ok ())

/-- Insertion by `version` (stable for equal versions). -/
def insertByVersion (x : FileRec) : List FileRec → List FileRec
  | [] => [x]
  | y :: ys => if x.version < y.version then x :: y :: ys else y :: insertByVersion x ys

/-- Mongo `sort({version: 1})`, oldest first. -/
def sortByVersion (l : List FileRec) : List FileRec :=
  l.foldr insertByVersion []

/-- `fileSchema.statics.findVersions`: the original of the lineage plus
every record pointing at it, ordered by ascending version. -/
def findVersions (files : List FileRec) (fileId : Nat) : Option (List FileRec) :=
  (findFile files fileId).map (fun currentFile =>
    let originalFileId := currentFile.originalFile.getD currentFile.fid
    sortByVersion (files.filter (fun g =>
      g.fid == originalFileId || g.originalFile == some originalFileId)))

/-! ## Operation sequences (for the reachable-state invariant of C4). -/

inductive Op
  | up (folderId : Nat) (originalname : String) (content size uploader : Nat) (role : Role)
  | restore (cwd : String) (targetId actor : Nat) (role : Role)

def runOp (st : St) : Op → St
  | .up folderId n c sz u r => (uploadFile st folderId n c sz u r).1
  | .restore cwd t a r => (restoreFile st cwd t a r).1

def runOps (st : St) (ops : List Op) : St :=
  ops.foldl runOp st

/-- A state with no file documents yet (the folder collection, the
physical tree and the id counter are arbitrary). -/
def initSt (folders : List FolderRec) (dirs : List String)
    (fsFiles : List (String × Nat)) (nextId : Nat) : St :=
  { folders := folders, files := [], dirs := dirs, fsFiles := fsFiles, nextId := nextId }

/-! ## Helper lemmas on the path model. -/

/-- A segment that can actually sit on an absolute normalisation stack:
nonempty, not a dot segment, slash-free. -/
def goodSeg (s : String) : Prop :=
  s ≠ "" ∧ s ≠ "." ∧ s ≠ ".." ∧ '/' ∉ s.toList

theorem splitChars_cons_slash (rest : List Char) :
    splitChars ('/' :: rest) = [] :: splitChars rest := by
  conv_lhs => unfold splitChars
  rw [if_pos rfl]

theorem splitChars_cons_ne (c : Char) (rest : List Char) (hc : ¬ c = '/')
    (s : List Char) (ss : List (List Char)) (h : splitChars rest = s :: ss) :
    splitChars (c :: rest) = (c :: s) :: ss := by
  unfold splitChars; rw [if_neg hc, h]

theorem splitChars_ne_nil (cs : List Char) : splitChars cs ≠ [] := by
  induction cs with
  | nil => simp [splitChars]
  | cons c rest ih =>
    by_cases hc : c = '/'
    · subst hc; rw [splitChars_cons_slash]; simp
    · cases h : splitChars rest with
      | nil => exact absurd h ih
      | cons s ss => rw [splitChars_cons_ne c rest hc s ss h]; simp

theorem splitChars_no_slash (cs : List Char) (h : '/' ∉ cs) :
    splitChars cs = [cs] := by
  induction cs with
  | nil => rfl
  | cons c rest ih =>
    have hc : ¬ c = '/' := fun hc => h (hc ▸ List.mem_cons_self c rest)
    have hr : '/' ∉ rest := fun hr => h (List.mem_cons_of_mem c hr)
    rw [splitChars_cons_ne c rest hc rest [] (ih hr)]

theorem splitChars_append_slash (l1 l2 : List Char) (h : '/' ∉ l1) :
    splitChars (l1 ++ '/' :: l2) = splitChars l1 ++ splitChars l2 := by
  induction l1 with
  | nil => simp [splitChars_cons_slash, splitChars]
  | cons c rest ih =>
    have hc : ¬ c = '/' := fun hc => h (hc ▸ List.mem_cons_self c rest)
    have hr : '/' ∉ rest := fun hr => h (List.mem_cons_of_mem c hr)
    have hl : splitChars (rest ++ '/' :: l2) = rest :: splitChars l2 := by
      rw [ih hr, splitChars_no_slash rest hr]; rfl
    rw [List.cons_append, splitChars_cons_ne c _ hc rest (splitChars l2) hl,
        splitChars_no_slash (c :: rest) h]
    rfl

theorem splitChars_mem_no_slash (cs : List Char) (piece : List Char)
    (h : piece ∈ splitChars cs) : '/' ∉ piece := by
  induction cs generalizing piece with
  | nil =>
    simp only [splitChars, List.mem_singleton] at h
    subst h; simp
  | cons c rest ih =>
    by_cases hc : c = '/'
    · subst hc
      rw [splitChars_cons_slash] at h
      rcases List.mem_cons.mp h with h | h
      · subst h; simp
      · exact ih piece h
    · cases hsp : splitChars rest with
      | nil => exact absurd hsp (splitChars_ne_nil rest)
      | cons s ss =>
        rw [splitChars_cons_ne c rest hc s ss hsp] at h
        rcases List.mem_cons.mp h with h | h
        · subst h
          intro hmem
          rcases List.mem_cons.mp hmem with h' | h'
          · exact hc h'.symm
          · exact ih s (by rw [hsp]; exact List.mem_cons_self s ss) h'
        · exact ih piece (by rw [hsp]; exact List.mem_cons_of_mem s h)

theorem splitSegs_mem_no_slash (p : String) (s : String) (h : s ∈ splitSegs p) :
    '/' ∉ s.toList := by
  simp only [splitSegs, List.mem_map] at h
  obtain ⟨cs, hcs, rfl⟩ := h
  exact splitChars_mem_no_slash p.toList cs hcs

theorem stepSeg_skip (abs : Bool) (init : List String) (seg : String)
    (h : seg = "" ∨ seg = ".") : stepSeg abs init seg = init := by
  unfold stepSeg; rw [if_pos h]

theorem stepSeg_dotdot_nil (abs : Bool) :
    stepSeg abs [] ".." = if abs then [] else [".."] := by
  unfold stepSeg
  rw [if_neg (by simp), if_pos rfl]

theorem stepSeg_dotdot_cons (abs : Bool) (a : String) (as : List String) :
    stepSeg abs (a :: as) ".." = if a = ".." then ".." :: a :: as else as := by
  unfold stepSeg
  rw [if_neg (by simp), if_pos rfl]

theorem stepSeg_push (abs : Bool) (init : List String) (seg : String)
    (h1 : ¬(seg = "" ∨ seg = ".")) (h2 : ¬ seg = "..") :
    stepSeg abs init seg = seg :: init := by
  unfold stepSeg; rw [if_neg h1, if_neg h2]

/-- A single absolute normalisation step keeps every stack entry good,
as long as the stack was good and the incoming segment is slash-free. -/
theorem stepSeg_true_good (init : List String) (seg : String)
    (hinit : ∀ s ∈ init, goodSeg s) (hs : '/' ∉ seg.toList) :
    ∀ t ∈ stepSeg true init seg, goodSeg t := by
  intro t ht
  by_cases h1 : seg = "" ∨ seg = "."
  · rw [stepSeg_skip true init seg h1] at ht; exact hinit t ht
  · by_cases h2 : seg = ".."
    · subst h2
      cases init with
      | nil => rw [stepSeg_dotdot_nil] at ht; simp at ht
      | cons a as =>
        have ha : goodSeg a := hinit a (List.mem_cons_self a as)
        rw [stepSeg_dotdot_cons, if_neg ha.2.2.1] at ht
        exact hinit t (List.mem_cons_of_mem a ht)
    · rw [stepSeg_push true init seg h1 h2] at ht
      rcases List.mem_cons.mp ht with h | h
      · subst h
        exact ⟨fun h => h1 (Or.inl h), fun h => h1 (Or.inr h), h2, hs⟩
      · exact hinit t h

/-- Folding onto a stack all of whose entries are good keeps every entry
good, as long as the incoming segments are slash-free. -/
theorem normStack_good (segs : List String) :
    ∀ init, (∀ s ∈ segs, '/' ∉ s.toList) → (∀ s ∈ init, goodSeg s) →
    ∀ s ∈ normStack true init segs, goodSeg s := by
  induction segs with
  | nil => intro init _ hinit s hs; exact hinit s hs
  | cons seg rest ih =>
    intro init hsegs hinit s hs
    have hrest : ∀ t ∈ rest, '/' ∉ t.toList :=
      fun t ht => hsegs t (List.mem_cons_of_mem seg ht)
    have hstep := stepSeg_true_good init seg hinit (hsegs seg (List.mem_cons_self seg rest))
    have := ih (stepSeg true init seg) hrest hstep s
    exact this (by simpa [normStack] using hs)

theorem normStack_all_pushed (segs : List String) :
    ∀ init, (∀ s ∈ segs, s ≠ "" ∧ s ≠ "." ∧ s ≠ "..") →
    normStack true init segs = segs.reverse ++ init := by
  induction segs with
  | nil => intro init _; simp [normStack]
  | cons seg rest ih =>
    intro init h
    have hseg := h seg (List.mem_cons_self seg rest)
    have hstep : stepSeg true init seg = seg :: init :=
      stepSeg_push true init seg
        (fun hor => Or.elim hor (fun h1 => hseg.1 h1) (fun h1 => hseg.2.1 h1))
        hseg.2.2
    have hrest : ∀ s ∈ rest, s ≠ "" ∧ s ≠ "." ∧ s ≠ ".." :=
      fun s hs => h s (List.mem_cons_of_mem seg hs)
    calc normStack true init (seg :: rest)
        = normStack true (stepSeg true init seg) rest := by simp [normStack]
      _ = rest.reverse ++ (seg :: init) := by rw [hstep]; exact ih _ hrest
      _ = (seg :: rest).reverse ++ init := by simp

theorem string_mk_toList (s : String) : String.mk s.toList = s := rfl

theorem toList_append (a b : String) : (a ++ b).toList = a.toList ++ b.toList := by
  cases a; cases b; rfl

theorem toList_slash_append (a b : String) :
    (a ++ "/" ++ b).toList = a.toList ++ '/' :: b.toList := by
  rw [toList_append, toList_append, List.append_assoc]
  rfl

theorem splitSegs_joinSegs (segs : List String) (hne : segs ≠ [])
    (h : ∀ s ∈ segs, '/' ∉ s.toList) :
    splitSegs (joinSegs segs) = segs := by
  induction segs with
  | nil => exact absurd rfl hne
  | cons s rest ih =>
    cases rest with
    | nil =>
      have hs := h s (List.mem_cons_self s [])
      show splitSegs s = [s]
      unfold splitSegs
      rw [splitChars_no_slash s.toList hs]
      simp [string_mk_toList]
    | cons t ts =>
      have hs := h s (List.mem_cons_self s (t :: ts))
      have hrest : ∀ x ∈ t :: ts, '/' ∉ x.toList :=
        fun x hx => h x (List.mem_cons_of_mem s hx)
      have hjoin : joinSegs (s :: t :: ts) = s ++ "/" ++ joinSegs (t :: ts) := rfl
      have htail : splitSegs (joinSegs (t :: ts)) = t :: ts := ih (by simp) hrest
      unfold splitSegs at htail ⊢
      rw [hjoin, toList_slash_append, splitChars_append_slash s.toList _ hs,
          splitChars_no_slash s.toList hs, List.map_append, htail]
      simp [string_mk_toList]

/-- Round trip for absolute paths: re-normalising the rendered form of a
good stack gives back the stack. -/
theorem normSegsOf_renderPath (stack : List String)
    (h : ∀ s ∈ stack, goodSeg s) :
    normSegsOf (renderPath true stack) = stack.reverse := by
  have hrender : renderPath true stack = "/" ++ joinSegs stack.reverse := by
    unfold renderPath; simp
  have htl : ("/" ++ joinSegs stack.reverse).toList
      = '/' :: (joinSegs stack.reverse).toList := by
    rw [toList_append]; rfl
  have habs : isAbsStr ("/" ++ joinSegs stack.reverse) = true := by
    unfold isAbsStr; rw [htl]; simp
  unfold normSegsOf
  rw [hrender, habs]
  have hsplit : splitSegs ("/" ++ joinSegs stack.reverse)
      = "" :: splitSegs (joinSegs stack.reverse) := by
    unfold splitSegs
    rw [htl, splitChars_cons_slash]
    rfl
  rw [hsplit]
  have hskip : normStack true [] ("" :: splitSegs (joinSegs stack.reverse))
      = normStack true [] (splitSegs (joinSegs stack.reverse)) := by
    unfold normStack
    rw [List.foldl_cons, stepSeg_skip true [] "" (Or.inl rfl)]
  rw [hskip]
  cases hstack : stack with
  | nil => decide
  | cons a as =>
    rw [← hstack]
    have hne : stack.reverse ≠ [] := by rw [hstack]; simp
    have hnos : ∀ s ∈ stack.reverse, '/' ∉ s.toList := by
      intro s hs; exact (h s (List.mem_reverse.mp hs)).2.2.2
    rw [splitSegs_joinSegs stack.reverse hne hnos]
    have hgood : ∀ s ∈ stack.reverse, s ≠ "" ∧ s ≠ "." ∧ s ≠ ".." := by
      intro s hs
      have := h s (List.mem_reverse.mp hs)
      exact ⟨this.1, this.2.1, this.2.2.1⟩
    rw [normStack_all_pushed stack.reverse [] hgood]
    simp

/-- Segments without `..` can only extend the stack: the initial stack
stays a prefix of the result (read root-first). -/
theorem normStack_no_dotdot_extends (segs : List String) :
    ∀ (abs : Bool) (init : List String), (∀ s ∈ segs, s ≠ "..") →
    init.reverse <+: (normStack abs init segs).reverse := by
  induction segs with
  | nil => intro abs init _; simp [normStack]
  | cons seg rest ih =>
    intro abs init h
    have hseg := h seg (List.mem_cons_self seg rest)
    have hrest : ∀ s ∈ rest, s ≠ ".." := fun s hs => h s (List.mem_cons_of_mem seg hs)
    have hfold : normStack abs init (seg :: rest) = normStack abs (stepSeg abs init seg) rest := by
      simp [normStack]
    rw [hfold]
    by_cases h1 : seg = "" ∨ seg = "."
    · rw [stepSeg_skip abs init seg h1]; exact ih abs init hrest
    · rw [stepSeg_push abs init seg h1 hseg]
      have h2 : init.reverse <+: (seg :: init).reverse := by
        rw [List.reverse_cons]; exact List.prefix_append _ _
      exact h2.trans (ih abs (seg :: init) hrest)

theorem foldl_append_normStack (abs : Bool) (init : List String) (l1 l2 : List String) :
    normStack abs init (l1 ++ l2) = normStack abs (normStack abs init l1) l2 := by
  simp [normStack, List.foldl_append]

/-! ## Claim C1 — path resolution and the storage root. -/

/-- C1 (counterexample): the claim says every resolution lies inside the
storage root and any resolution or operation aimed outside fails with
PathViolation.  In fact `getFullPath ".."` resolves to the parent of the
root, `createDirectory` happily acts there without any error, and even
`deleteDirectory`'s guard admits the sibling directory `storagex`
(string-prefix test), deleting content outside the root. -/
theorem c1_resolution_escapes_root :
    ¬ insideRoot "/srv/back-end/storage" (getFullPath "/srv/back-end/storage" "..") ∧
    createDirectory "/srv/back-end/storage" [] ".." = (["/srv/back-end"], "/srv/back-end") ∧
    deleteDirectory "/srv/back-end/storage" ["/srv/back-end/storagex/f.txt"] "../storagex" =
      Except.ok [] := by
  refine ⟨?_, rfl, rfl⟩
  unfold insideRoot
  decide

/-- C1 (amended): `getFullPath` performs no containment check, so `..`
segments can resolve outside the root and the non-delete operations act
on the resolved path without failing; a relative path free of `..`
always resolves inside the root; only `deleteDirectory` refuses — with a
generic error, not a PathViolation — exactly when the resolved path
string equals the root or does not start with the root string. -/
theorem c1_containment_amended (root rel : String) (dirs : List String)
    (habs : isAbsStr root = true) :
    ((∀ s ∈ splitSegs rel, s ≠ "..") → insideRoot root (getFullPath root rel)) ∧
    ((deleteDirectory root dirs rel = Except.error "Attempted to delete protected directory") ↔
      (getFullPath root rel = root ∨ strStartsWith (getFullPath root rel) root = false)) := by
  constructor
  · intro hnd
    unfold insideRoot getFullPath pathJoin joinStack
    rw [habs]
    have hfree : ∀ s ∈ splitSegs root ++ splitSegs rel, '/' ∉ s.toList := by
      intro s hs
      rcases List.mem_append.mp hs with h | h
      · exact splitSegs_mem_no_slash root s h
      · exact splitSegs_mem_no_slash rel s h
    have hgood := normStack_good (splitSegs root ++ splitSegs rel) [] hfree (by simp)
    rw [normSegsOf_renderPath _ hgood]
    conv_lhs => unfold normSegsOf
    rw [habs, foldl_append_normStack]
    exact normStack_no_dotdot_extends (splitSegs rel) true _ hnd
  · unfold deleteDirectory
    by_cases hcond : getFullPath root rel = root ∨
        strStartsWith (getFullPath root rel) root = false
    · rw [if_pos hcond]
      simp [hcond]
    · rw [if_neg hcond]
      constructor
      · intro h; exact absurd h (by simp)
      · intro h; exact absurd h hcond

/-- Witness for `c1_containment_amended` at the concrete root and the
plain relative path `docs`. -/
theorem c1_containment_amended_witness :
    isAbsStr "/srv/back-end/storage" = true ∧
    insideRoot "/srv/back-end/storage" (getFullPath "/srv/back-end/storage" "docs") :=
  ⟨by decide,
   (c1_containment_amended "/srv/back-end/storage" "docs" [] (by decide)).1 (by decide)⟩

/-! ## Claim C2 — the path/depth invariant of the folder tree. -/

/-- The `/`-joined chain of ancestor names of folder `i`, root first,
computed by following `parentFolder` links (`fuel` bounds the walk; any
fuel at least the collection size is enough on well-founded trees). -/
def chainNames (folders : List FolderRec) : Nat → Nat → Option (List String)
  | 0, _ => none
  | fuel + 1, i =>
    match findFolder folders i with
    | none => none
    | some f =>
      match f.parentFolder with
      | none => some [f.name]
      | some p => (chainNames folders fuel p).map (fun l => l ++ [f.name])

/-- The claimed invariant, per folder: `path` is the `/`-joined ancestor
name chain and `depth` is the number of ancestors (chain length minus
one). -/
def folderOk (folders : List FolderRec) (f : FolderRec) : Bool :=
  match chainNames folders folders.length f.fid with
  | some l => f.path == joinSegs l && f.depth + 1 == l.length
  | none => false

/-- The claimed invariant for a whole folder collection. -/
def PathDepthInv (folders : List FolderRec) : Prop :=
  ∀ f ∈ folders, folderOk folders f = true

theorem chainNames_mono (folders : List FolderRec) :
    ∀ fuel fuel' i l, fuel ≤ fuel' → chainNames folders fuel i = some l →
    chainNames folders fuel' i = some l := by
  intro fuel
  induction fuel with
  | zero => intro fuel' i l _ h; simp [chainNames] at h
  | succ n ih =>
    intro fuel' i l hle h
    cases fuel' with
    | zero => exact absurd hle (by omega)
    | succ m =>
      unfold chainNames at h ⊢
      cases hf : findFolder folders i with
      | none => simp only [hf] at h; exact Option.noConfusion h
      | some f =>
        simp only [hf] at h ⊢
        cases hp : f.parentFolder with
        | none => simp only [hp] at h ⊢; exact h
        | some p =>
          simp only [hp] at h ⊢
          cases hc : chainNames folders n p with
          | none => simp only [hc, Option.map_none'] at h; exact Option.noConfusion h
          | some l' =>
            simp only [hc, Option.map_some'] at h
            rw [ih m p l' (by omega) hc]
            exact h

theorem find?_append_of_some {α : Type} (p : α → Bool) (l1 l2 : List α) (x : α)
    (h : l1.find? p = some x) : (l1 ++ l2).find? p = some x := by
  induction l1 with
  | nil => simp at h
  | cons a as ih =>
    by_cases hp : p a
    · rw [List.find?_cons_of_pos _ hp] at h
      show List.find? p (a :: (as ++ l2)) = some x
      rw [List.find?_cons_of_pos _ hp]
      exact h
    · rw [List.find?_cons_of_neg _ (by simpa using hp)] at h
      show List.find? p (a :: (as ++ l2)) = some x
      rw [List.find?_cons_of_neg _ (by simpa using hp)]
      exact ih h

theorem find?_append_of_none {α : Type} (p : α → Bool) (l1 l2 : List α)
    (h : l1.find? p = none) : (l1 ++ l2).find? p = l2.find? p := by
  induction l1 with
  | nil => simp
  | cons a as ih =>
    by_cases hp : p a
    · rw [List.find?_cons_of_pos _ hp] at h; simp at h
    · rw [List.find?_cons_of_neg _ (by simpa using hp)] at h
      show List.find? p (a :: (as ++ l2)) = _
      rw [List.find?_cons_of_neg _ (by simpa using hp)]
      exact ih h

theorem chainNames_append (folders : List FolderRec) (new : FolderRec) :
    ∀ fuel i l, chainNames folders fuel i = some l →
    chainNames (folders ++ [new]) fuel i = some l := by
  intro fuel
  induction fuel with
  | zero => intro i l h; simp [chainNames] at h
  | succ n ih =>
    intro i l h
    unfold chainNames at h ⊢
    cases hf : findFolder folders i with
    | none => simp only [hf] at h; exact Option.noConfusion h
    | some f =>
      simp only [hf] at h
      have hf' : findFolder (folders ++ [new]) i = some f :=
        find?_append_of_some _ folders [new] f hf
      simp only [hf']
      cases hp : f.parentFolder with
      | none => simp only [hp] at h ⊢; exact h
      | some p =>
        simp only [hp] at h ⊢
        cases hc : chainNames folders n p with
        | none => simp only [hc, Option.map_none'] at h; exact Option.noConfusion h
        | some l' =>
          simp only [hc, Option.map_some'] at h
          rw [ih p l' hc]
          exact h

theorem chainNames_ne_nil (folders : List FolderRec) :
    ∀ fuel i l, chainNames folders fuel i = some l → l ≠ [] := by
  intro fuel i l h
  cases fuel with
  | zero => simp [chainNames] at h
  | succ n =>
    unfold chainNames at h
    cases hf : findFolder folders i with
    | none => simp only [hf] at h; exact Option.noConfusion h
    | some f =>
      simp only [hf] at h
      cases hp : f.parentFolder with
      | none => simp only [hp] at h; simp at h; subst h; simp
      | some p =>
        simp only [hp] at h
        cases hc : chainNames folders n p with
        | none => simp only [hc, Option.map_none'] at h; exact Option.noConfusion h
        | some l' => simp only [hc, Option.map_some'] at h; simp at h; subst h; simp

theorem joinSegs_append_one (l : List String) (x : String) (h : l ≠ []) :
    joinSegs (l ++ [x]) = joinSegs l ++ "/" ++ x := by
  induction l with
  | nil => exact absurd rfl h
  | cons a as ih =>
    cases as with
    | nil => rfl
    | cons b bs =>
      have : joinSegs ((a :: b :: bs) ++ [x]) = a ++ "/" ++ joinSegs ((b :: bs) ++ [x]) := rfl
      rw [this, ih (by simp)]
      simp [joinSegs, String.append_assoc]

/-- Structure of a successful folder create: the new record is appended,
carries the fresh id, and its `path`/`depth` are computed by the save
hook from the (existing) parent, or are `name`/`0` at the root. -/
theorem createFolder_ok_shape (st : St) (name : String) (parent : Option Nat)
    (creator : Nat) (role : Role) (st' : St) (f : FolderRec)
    (h : createFolder st name parent creator role = (st', Except.ok f)) :
    st'.folders = st.folders ++ [f] ∧ f.fid = st.nextId ∧ f.name = name ∧
    f.parentFolder = parent ∧
    ((∃ pid parentRec, parent = some pid ∧ findFolder st.folders pid = some parentRec ∧
        f.path = parentRec.path ++ "/" ++ name ∧ f.depth = parentRec.depth + 1) ∨
     (parent = none ∧ f.path = name ∧ f.depth = 0)) := by
  cases parent with
  | none =>
    simp only [createFolder] at h
    split at h
    · exact absurd h (by simp)
    split at h
    · exact absurd h (by simp)
    split at h
    · exact absurd h (by simp)
    split at h
    · exact absurd h (by simp)
    split at h
    · exact absurd h (by simp)
    rw [Prod.mk.injEq] at h
    obtain ⟨hst, hf⟩ := h
    rw [Except.ok.injEq] at hf
    subst hf
    subst hst
    exact ⟨rfl, rfl, rfl, rfl, Or.inr ⟨rfl, rfl, rfl⟩⟩
  | some pid =>
    cases hlook : findFolder st.folders pid with
    | none =>
      simp only [createFolder, hlook] at h
      split at h
      · exact absurd h (by simp)
      split at h
      · exact absurd h (by simp)
      exact absurd h (by simp)
    | some parentRec =>
      simp only [createFolder, hlook] at h
      split at h
      · exact absurd h (by simp)
      split at h
      · exact absurd h (by simp)
      split at h
      · exact absurd h (by simp)
      split at h
      · exact absurd h (by simp)
      split at h
      · exact absurd h (by simp)
      rw [Prod.mk.injEq] at h
      obtain ⟨hst, hf⟩ := h
      rw [Except.ok.injEq] at hf
      subst hf
      subst hst
      exact ⟨rfl, rfl, rfl, rfl, Or.inl ⟨pid, parentRec, rfl, hlook, rfl, rfl⟩⟩

/-- Boolean reading of `folderOk`. -/
theorem folderOk_iff (folders : List FolderRec) (f : FolderRec) :
    folderOk folders f = true ↔
    ∃ l, chainNames folders folders.length f.fid = some l ∧
      f.path = joinSegs l ∧ f.depth + 1 = l.length := by
  unfold folderOk
  cases hc : chainNames folders folders.length f.fid with
  | none =>
    simp only [hc]
    constructor
    · intro h; exact absurd h (by simp)
    · rintro ⟨l, hl, _⟩; exact absurd hl (by simp)
  | some l =>
    simp only [hc, Bool.and_eq_true, beq_iff_eq, Option.some.injEq]
    constructor
    · rintro ⟨h1, h2⟩; exact ⟨l, rfl, h1, h2⟩
    · rintro ⟨l', hl', h1, h2⟩
      subst hl'
      exact ⟨h1, h2⟩

/-- C2 (amended, positive half): a successful folder create preserves the
path/depth invariant — every folder's `path` stays the `/`-joined chain
of ancestor names and `depth` the number of ancestors, the new folder
included (root creates get `path = name`, `depth = 0`). -/
theorem c2_create_keeps_invariant (st : St) (name : String) (parent : Option Nat)
    (creator : Nat) (role : Role) (st' : St) (f : FolderRec)
    (hinv : PathDepthInv st.folders)
    (hbdd : ∀ g ∈ st.folders, g.fid < st.nextId)
    (h : createFolder st name parent creator role = (st', Except.ok f)) :
    PathDepthInv st'.folders := by
  obtain ⟨hfolders, hfid, hname, hparent, hshape⟩ :=
    createFolder_ok_shape st name parent creator role st' f h
  intro g hg
  rw [hfolders] at hg
  have hlen : st'.folders.length = st.folders.length + 1 := by
    rw [hfolders]; simp
  have hlen2 : (st.folders ++ [f]).length = st.folders.length + 1 := by simp
  rcases List.mem_append.mp hg with hold | hnew
  · -- a pre-existing folder keeps its chain
    have hok := hinv g hold
    rw [folderOk_iff] at hok
    obtain ⟨l, hl, hpath, hdepth⟩ := hok
    rw [folderOk_iff, hfolders, hlen2]
    refine ⟨l, ?_, hpath, hdepth⟩
    exact chainNames_append st.folders f (st.folders.length + 1) g.fid l
      (chainNames_mono st.folders st.folders.length (st.folders.length + 1) g.fid l
        (by omega) hl)
  · -- the new folder: its chain is the parent chain extended by its name
    rw [List.mem_singleton] at hnew
    subst hnew
    have hfresh : st.folders.find? (fun x => x.fid == g.fid) = none := by
      rw [List.find?_eq_none]
      intro x hx
      have hlt := hbdd x hx
      simp only [beq_iff_eq, hfid]
      omega
    have hself : findFolder (st.folders ++ [g]) g.fid = some g := by
      unfold findFolder
      rw [find?_append_of_none _ _ _ hfresh]
      simp [List.find?]
    rw [folderOk_iff, hfolders, hlen2]
    rcases hshape with ⟨pid, parentRec, hpsome, hlook, hpath, hdepth⟩ | ⟨hpnone, hpath, hdepth⟩
    · -- child of an existing parent
      have hpmem : parentRec ∈ st.folders := List.mem_of_find?_eq_some hlook
      have hpok := hinv parentRec hpmem
      rw [folderOk_iff] at hpok
      obtain ⟨lp, hlp, hppath, hpdepth⟩ := hpok
      have hpfid : parentRec.fid = pid := by
        have := List.find?_some hlook
        simpa using this
      have hlp' : chainNames (st.folders ++ [g]) st.folders.length pid = some lp :=
        chainNames_append st.folders g st.folders.length pid lp (hpfid ▸ hlp)
      refine ⟨lp ++ [g.name], ?_, ?_, ?_⟩
      · simp only [chainNames, hself, hparent, hpsome, hlp', Option.map_some']
      · rw [hpath, hname, hppath]
        exact (joinSegs_append_one lp name
          (chainNames_ne_nil st.folders st.folders.length parentRec.fid lp hlp)).symm
      · rw [hdepth, hpdepth]
        simp
    · -- a root folder
      refine ⟨[g.name], ?_, ?_, ?_⟩
      · simp only [chainNames, hself, hparent, hpnone]
      · rw [hpath, hname]; rfl
      · simp [hdepth]

/-- Witness for `c2_create_keeps_invariant`: a concrete root create from
an empty collection satisfies the invariant. -/
theorem c2_create_keeps_invariant_witness :
    PathDepthInv (createFolder (initSt [] [] [] 0) "a" none 7 Role.admin).1.folders :=
  c2_create_keeps_invariant (initSt [] [] [] 0) "a" none 7 Role.admin _ _
    (fun f hf => absurd hf (List.not_mem_nil f))
    (fun g hg => absurd hg (List.not_mem_nil g))
    rfl

def c2FolderA : FolderRec :=
  { fid := 0, name := "a", parentFolder := none, path := "a", depth := 0,
    createdBy := 7, isSystemFolder := false, access := [] }

def c2FolderB : FolderRec :=
  { fid := 1, name := "b", parentFolder := none, path := "b", depth := 0,
    createdBy := 7, isSystemFolder := false, access := [] }

def c2St : St :=
  { folders := [c2FolderA, c2FolderB], files := [], dirs := [], fsFiles := [], nextId := 2 }

/-- C2 (counterexample): moving root folder `b` under root folder `a`
through the update route succeeds and recomputes the path (`a/b`) but
never recomputes `depth`; afterwards `b` has one ancestor but depth `0`,
so the claimed invariant fails after a move. -/
theorem c2_move_breaks_invariant :
    PathDepthInv c2St.folders ∧
    (updateFolder c2St 1 7 Role.admin none (some (some 0))).2 =
      Except.ok { c2FolderB with parentFolder := some 0, path := "a/b" } ∧
    ¬ PathDepthInv (updateFolder c2St 1 7 Role.admin none (some (some 0))).1.folders := by
  refine ⟨?_, rfl, ?_⟩
  · unfold PathDepthInv; decide
  · unfold PathDepthInv; decide

/-! ## Claim C5 — rename/move order of operations. -/

def c5Folder : FolderRec :=
  { fid := 0, name := "a", parentFolder := none, path := "a", depth := 0,
    createdBy := 7, isSystemFolder := false, access := [] }

def c5St : St :=
  { folders := [c5Folder], files := [], dirs := ["/srv/back-end/storage/a"],
    fsFiles := [], nextId := 1 }

/-- C5: renaming a folder through the update route
(`findByIdAndUpdate`, which bypasses the schema pre-save hook) updates
the record's path and visits the (here empty) descendants, yet the
physical directory list is untouched — no `storage.moveDirectory` call
happens on this code path, contradicting the claimed
"physical directory is moved first". -/
theorem c5_update_route_moves_no_directory :
    (updateFolder c5St 0 7 Role.admin (some "b") none).2 =
      Except.ok { c5Folder with name := "b", path := "/b" } ∧
    (updateFolder c5St 0 7 Role.admin (some "b") none).1.dirs = c5St.dirs ∧
    (updateFolder c5St 0 7 Role.admin (some "b") none).1.folders =
      [{ c5Folder with name := "b", path := "/b" }] :=
  ⟨rfl, rfl, rfl⟩

/-! ## Claim C3 — versioned naming and the collision loop. -/

def c3Folder : FolderRec :=
  { fid := 0, name := "docs", parentFolder := none, path := "docs", depth := 0,
    createdBy := 7, isSystemFolder := false, access := [] }

def c3St0 : St := initSt [c3Folder] [] [] 1

def c3St2 : St :=
  runOps c3St0 [Op.up 0 "report.pdf" 50 5 7 Role.admin,
                Op.up 0 "report(1).pdf" 60 5 7 Role.admin]

/-- C3: version 1 keeps the original name and versions N > 1 get the
`(N-1)` suffix, but when the computed versioned name collides with an
existing non-deleted filename the collision loop assigns to the `const`
`versionedName` and the upload dies with a TypeError: the free name
`report(2).pdf` demanded by the claim is never probed or used, and no
record is created. -/
theorem c3_collision_loop_crashes :
    generateVersionedName "report.pdf" 1 = "report.pdf" ∧
    generateVersionedName "report.pdf" 2 = "report(1).pdf" ∧
    generateVersionedName "report.pdf" 3 = "report(2).pdf" ∧
    (∃ r, (uploadFile c3St0 0 "report.pdf" 50 5 7 Role.admin).2 =
        Except.ok (UploadOutcome.uploaded r) ∧ r.filename = "report.pdf" ∧ r.version = 1) ∧
    (uploadFile c3St2 0 "report.pdf" 70 5 7 Role.admin).2 =
      Except.error "TypeError: Assignment to constant variable" ∧
    (uploadFile c3St2 0 "report.pdf" 70 5 7 Role.admin).1.files = c3St2.files ∧
    ¬ ∃ g ∈ c3St2.files, g.filename = "report(2).pdf" := by
  refine ⟨rfl, rfl, rfl, ⟨_, rfl, rfl, rfl⟩, rfl, rfl, ?_⟩
  decide

/-! ## Claim C8 — restoring an old version. -/

def c8Folder : FolderRec :=
  { fid := 0, name := "docs", parentFolder := none, path := "docs", depth := 0,
    createdBy := 7, isSystemFolder := false, access := [] }

def c8St3 : St :=
  runOps (initSt [c8Folder] [] [] 1)
    [Op.up 0 "report.pdf" 11 5 7 Role.admin,
     Op.up 0 "report.pdf" 22 5 7 Role.admin,
     Op.up 0 "report.pdf" 33 5 7 Role.admin]

/-- C8: on a 3-version lineage (ids 1,2,3; version 3 current) restoring
version 1 never succeeds: with the process cwd outside the storage root
the physical copy fails with ENOENT (the stored paths are
storage-relative), and even with cwd at the storage root the new record
reuses version 1's filename, so the save-hook path collides with the
unique `path` index; no version-4 record appears, the current version is
not demoted, and `findVersions` still returns the three original records
oldest-first. -/
theorem c8_restore_always_fails :
    (restoreFile c8St3 "/srv/back-end" 1 7 Role.admin).2 = Except.error "ENOENT: copyFile" ∧
    (restoreFile c8St3 STORAGE_ROOT 1 7 Role.admin).2 =
      Except.error "E11000 duplicate file path" ∧
    (restoreFile c8St3 "/srv/back-end" 1 7 Role.admin).1.files = c8St3.files ∧
    (restoreFile c8St3 STORAGE_ROOT 1 7 Role.admin).1.files = c8St3.files ∧
    (findVersions c8St3.files 1).map
        (fun l => l.map (fun f => (f.fid, f.version, f.isCurrentVersion))) =
      some [(1, 1, false), (2, 2, false), (3, 3, true)] :=
  ⟨rfl, rfl, rfl, rfl, rfl⟩

/-! ## Claim C6 — cycle prevention on folder moves. -/

/-- `containsStr` is substring containment. -/
theorem containsStr_iff (hay needle : String) :
    containsStr hay needle = true ↔ needle.toList <:+: hay.toList := by
  unfold containsStr
  rw [List.any_eq_true]
  constructor
  · rintro ⟨t, ht, hpre⟩
    rw [List.isPrefixOf_iff_prefix] at hpre
    rw [List.infix_iff_prefix_suffix]
    exact ⟨t, hpre, (List.mem_tails t hay.toList).mp ht⟩
  · intro h
    rw [List.infix_iff_prefix_suffix] at h
    obtain ⟨t, hpre, hsuf⟩ := h
    exact ⟨t, (List.mem_tails t hay.toList).mpr hsuf,
      List.isPrefixOf_iff_prefix.mpr hpre⟩

def c6FolderA : FolderRec :=
  { fid := 0, name := "ab", parentFolder := none, path := "ab", depth := 0,
    createdBy := 7, isSystemFolder := false, access := [] }

def c6FolderB : FolderRec :=
  { fid := 1, name := "b", parentFolder := none, path := "b", depth := 0,
    createdBy := 7, isSystemFolder := false, access := [] }

def c6St : St :=
  { folders := [c6FolderA, c6FolderB], files := [], dirs := [], fsFiles := [], nextId := 2 }

/-- C6 (counterexample): moving root folder `b` (path `b`) under the
unrelated root folder `ab` (path `ab`) fails with the cycle-guard error
even though `ab` is not `b`, not a descendant of `b` (it is a root
folder, its ancestor chain is just `["ab"]`), and its path is neither a
prefix of nor equal to `b`'s path: the code tests substring containment
(`"ab".includes("b")`), not the relation the claim describes. -/
theorem c6_guard_overblocks :
    (updateFolder c6St 1 7 Role.admin none (some (some 0))) =
      (c6St, Except.error "Cannot move folder into itself or its children") ∧
    c6FolderA.path ≠ c6FolderB.path ∧
    ¬ (c6FolderA.path.toList <+: c6FolderB.path.toList) ∧
    chainNames c6St.folders c6St.folders.length c6FolderA.fid = some ["ab"] := by
  refine ⟨rfl, ?_, ?_, rfl⟩ <;> decide

/-- C6 (amended): a move request (with an existing source and
destination, by an authorised actor) fails with the guard error and
leaves the whole state unchanged exactly when the destination folder's
path contains the source folder's path as a substring; a move into the
folder itself or into any folder whose path extends the folder's own
path by a slash always trips the guard, but the substring test also
rejects unrelated destinations. -/
theorem c6_cycle_guard_characterisation (st : St) (fid pid actor : Nat) (role : Role)
    (newName : Option String) (folder newParent : FolderRec)
    (hfind : findFolder st.folders fid = some folder)
    (hauth : role = Role.admin ∨ folder.createdBy = actor)
    (hpar : findFolder st.folders pid = some newParent) :
    (containsStr newParent.path folder.path = true →
      updateFolder st fid actor role newName (some (some pid)) =
        (st, Except.error "Cannot move folder into itself or its children")) ∧
    (containsStr newParent.path folder.path = false →
      (updateFolder st fid actor role newName (some (some pid))).2 ≠
        Except.error "Cannot move folder into itself or its children") ∧
    ((newParent.path = folder.path ∨
      (∃ rest, newParent.path.toList = folder.path.toList ++ '/' :: rest)) →
      containsStr newParent.path folder.path = true) := by
  refine ⟨?_, ?_, ?_⟩
  · intro hguard
    unfold updateFolder
    simp only [hfind, hpar, hguard]
    rw [if_neg (by push_neg; exact hauth)]
    simp
  · intro hguard
    unfold updateFolder
    simp only [hfind, hpar, hguard]
    rw [if_neg (by push_neg; exact hauth)]
    simp only [Bool.false_eq_true, if_false]
    split
    · intro hcontra; simp at hcontra
    · split
      · intro hcontra; simp at hcontra
      · split
        · intro hcontra; simp at hcontra
        · intro hcontra; simp at hcontra
  · intro h
    rw [containsStr_iff]
    rcases h with h | ⟨rest, hrest⟩
    · rw [h]
    · rw [hrest]
      exact (List.prefix_append folder.path.toList ('/' :: rest)).isInfix

/-- Witness for `c6_cycle_guard_characterisation` at the concrete
overblocking state. -/
theorem c6_cycle_guard_characterisation_witness :
    updateFolder c6St 1 7 Role.admin none (some (some 0)) =
      (c6St, Except.error "Cannot move folder into itself or its children") :=
  (c6_cycle_guard_characterisation c6St 1 0 7 Role.admin none c6FolderB c6FolderA
    rfl (Or.inl rfl) rfl).1 (by decide)

/-! ## Save-hook characterisation (shared by C4, C7, C9, C10). -/

/-- Structure of a successful new-document file save: the folder exists,
`path` is overwritten by the hook to `folder.path/filename`, the hash is
recomputed from the bytes at that path when present, the record is
appended, and no existing record occupies the new path. -/
theorem fileSaveNew_ok (st : St) (f : FileRec) (st' : St) (g : FileRec)
    (h : fileSaveNew st f = (st', Except.ok g)) :
    ∃ fo, findFolder st.folders f.folder = some fo ∧
      g = { f with path := pathJoin fo.path f.filename,
                   fileHash := (fsGet st.fsFiles
                     (getFullPath STORAGE_ROOT (pathJoin fo.path f.filename))).getD f.fileHash } ∧
      st'.files = st.files ++ [g] ∧ st'.folders = st.folders ∧ st'.nextId = st.nextId ∧
      (st.files.any (fun q => q.path = pathJoin fo.path f.filename)) = false := by
  unfold fileSaveNew at h
  split at h
  · exact absurd h (by simp)
  split at h
  · exact absurd h (by simp)
  rename_i fo hfo
  dsimp only [] at h
  split at h
  · exact absurd h (by simp)
  split at h
  · exact absurd h (by simp)
  split at h
  · exact absurd h (by simp)
  rename_i hp hn hh
  rw [Prod.mk.injEq] at h
  obtain ⟨hst, hg⟩ := h
  rw [Except.ok.injEq] at hg
  subst hg
  subst hst
  exact ⟨fo, hfo, rfl, rfl, rfl, rfl, by simpa using hp⟩

/-- A failed new-document file save leaves the file collection, the
folder collection and the id counter unchanged. -/
theorem fileSaveNew_error (st : St) (f : FileRec) (st' : St) (e : String)
    (h : fileSaveNew st f = (st', Except.error e)) :
    st'.files = st.files ∧ st'.folders = st.folders ∧ st'.nextId = st.nextId := by
  unfold fileSaveNew at h
  split at h
  · rw [Prod.mk.injEq] at h; rw [← h.1]; exact ⟨rfl, rfl, rfl⟩
  split at h
  · rw [Prod.mk.injEq] at h; rw [← h.1]; exact ⟨rfl, rfl, rfl⟩
  dsimp only [] at h
  split at h
  · rw [Prod.mk.injEq] at h; rw [← h.1]; exact ⟨rfl, rfl, rfl⟩
  split at h
  · rw [Prod.mk.injEq] at h; rw [← h.1]; exact ⟨rfl, rfl, rfl⟩
  split at h
  · rw [Prod.mk.injEq] at h; rw [← h.1]; exact ⟨rfl, rfl, rfl⟩
  exact absurd h (by simp)

/-! ## Claim C10 — approval state of new uploads by uploader role. -/

/-- C10: every record persisted by a successful upload carries an
approval state determined by the uploader's role — admin and sub-admin
uploads are stored approved with `approvedBy` the uploader and
`approvedAt` set, while uploads by a plain user are stored pending with
no approver annotation. -/
theorem c10_upload_approval_by_role (st : St) (folderId : Nat) (orig : String)
    (content size uploader : Nat) (role : Role) (st' : St) (r : FileRec)
    (h : uploadFile st folderId orig content size uploader role =
      (st', Except.ok (UploadOutcome.uploaded r))) :
    ((role = Role.admin ∨ role = Role.subAdmin) →
      r.approvalStatus = ApprovalStatus.approved ∧ r.approvedBy = some uploader ∧
        r.approvedAt = true) ∧
    (role = Role.user →
      r.approvalStatus = ApprovalStatus.pending ∧ r.approvedBy = none ∧
        r.approvedAt = false) := by
  unfold uploadFile at h
  split at h
  · exact absurd h (by simp)
  dsimp only [] at h
  split at h
  · exact absurd h (by simp)
  split at h
  · exact absurd h (by simp)
  split at h
  · exact absurd h (by simp)
  split at h
  · exact absurd h (by simp)
  rename_i dupNone
  split at h
  rename_i st3 res saved hsave
  · -- save errored
    exact absurd h (by simp)
  · rename_i st3 saved hsave
    obtain ⟨fo, hfo, hgdef, _, _, _, _⟩ :=
      fileSaveNew_ok _ _ _ _ hsave
    split at h
    · rw [Prod.mk.injEq] at h
      obtain ⟨_, hr⟩ := h
      rw [Except.ok.injEq, UploadOutcome.uploaded.injEq] at hr
      subst hr
      subst hgdef
      constructor
      · intro hrole
        exact ⟨by simp [if_pos hrole], by simp [if_pos hrole], decide_eq_true hrole⟩
      · intro hrole
        subst hrole
        refine ⟨?_, ?_, ?_⟩ <;> simp
    · rw [Prod.mk.injEq] at h
      obtain ⟨_, hr⟩ := h
      rw [Except.ok.injEq, UploadOutcome.uploaded.injEq] at hr
      subst hr
      subst hgdef
      constructor
      · intro hrole
        exact ⟨by simp [if_pos hrole], by simp [if_pos hrole], decide_eq_true hrole⟩
      · intro hrole
        subst hrole
        refine ⟨?_, ?_, ?_⟩ <;> simp

def c10Folder : FolderRec :=
  { fid := 0, name := "docs", parentFolder := none, path := "docs", depth := 0,
    createdBy := 7, isSystemFolder := false, access := [] }

def c10St0 : St := initSt [c10Folder] [] [] 1

def c10Rec : FileRec :=
  { fid := 1, filename := "a.txt", originalFilename := "a.txt", path := "docs/a.txt",
    size := 3, folder := 0, owner := 7, uploadedBy := 7,
    approvalStatus := ApprovalStatus.approved, approvedBy := some 7, approvedAt := true,
    version := 1, isCurrentVersion := true, previousVersions := [], originalFile := none,
    fileHash := 9, isDeleted := false }

/-- Witness for `c10_upload_approval_by_role`: a concrete admin upload is
persisted approved with the uploader as approver. -/
theorem c10_upload_approval_by_role_witness :
    c10Rec.approvalStatus = ApprovalStatus.approved ∧ c10Rec.approvedBy = some 7 ∧
      c10Rec.approvedAt = true :=
  (c10_upload_approval_by_role c10St0 0 "a.txt" 9 3 7 Role.admin
    (uploadFile c10St0 0 "a.txt" 9 3 7 Role.admin).1 c10Rec rfl).1 (Or.inl rfl)

/-! ## Claim C9 — file delete removes record and physical object. -/

theorem fsHas_eraseKey (fs : List (String × Nat)) (p : String) :
    fsHas (fsEraseKey fs p) p = false := by
  induction fs with
  | nil => rfl
  | cons e rest ih =>
    unfold fsEraseKey at ih ⊢
    rw [List.filter_cons]
    by_cases he : e.1 = p
    · rw [if_neg (by simp [he])]
      exact ih
    · rw [if_pos (by simpa using he)]
      unfold fsHas at ih ⊢
      rw [List.any_cons, ih]
      simpa using he

/-- C9: deleting an existing file record — authorised, with the usual
storage-relative path produced by uploads and renames — succeeds with the
record removed and the physical object erased; when the object is
already absent the erase is a no-op and the call still succeeds,
removing the record (the schema hook's broken `storage.unlink` branch is
unreachable because the route has already unlinked the same resolved
path). -/
theorem c9_delete_removes_record_and_object (st : St) (fileId actor : Nat) (role : Role)
    (file : FileRec)
    (hfind : findFile st.files fileId = some file)
    (hacc : role = Role.admin ∨ file.owner = actor ∨
      (validateFolderAccess st.folders file.folder actor).isSome = true)
    (hpath : strStartsWith (pathJoin STORAGE_ROOT file.path) (STORAGE_ROOT ++ "/") = true) :
    deleteFileRoute st fileId actor role =
      ({ st with fsFiles := fsEraseKey st.fsFiles (pathJoin STORAGE_ROOT file.path),
                 files := st.files.filter (fun g => g.fid ≠ fileId) },
       Except.ok ()) ∧
    fsHas (fsEraseKey st.fsFiles (pathJoin STORAGE_ROOT file.path))
      (pathJoin STORAGE_ROOT file.path) = false := by
  refine ⟨?_, fsHas_eraseKey st.fsFiles (pathJoin STORAGE_ROOT file.path)⟩
  unfold deleteFileRoute
  simp only [hfind]
  rw [if_neg (by push_neg; exact hacc)]
  rw [hpath]
  simp only [Bool.true_eq_false, if_false]
  unfold getFullPath
  rw [fsHas_eraseKey]
  simp

def c9Folder : FolderRec :=
  { fid := 0, name := "docs", parentFolder := none, path := "docs", depth := 0,
    createdBy := 7, isSystemFolder := false, access := [] }

def c9File : FileRec :=
  { fid := 1, filename := "report.pdf", originalFilename := "report.pdf",
    path := "docs/report.pdf", size := 5, folder := 0, owner := 7, uploadedBy := 7,
    approvalStatus := ApprovalStatus.approved, approvedBy := some 7, approvedAt := true,
    version := 1, isCurrentVersion := true, previousVersions := [], originalFile := none,
    fileHash := 11, isDeleted := false }

def c9St : St :=
  { folders := [c9Folder], files := [c9File],
    dirs := ["/srv/back-end/storage/docs"],
    fsFiles := [("/srv/back-end/storage/docs/report.pdf", 11)], nextId := 2 }

/-- Witness for `c9_delete_removes_record_and_object` at a concrete
one-file state whose physical object exists. -/
theorem c9_delete_removes_record_and_object_witness :
    deleteFileRoute c9St 1 7 Role.admin =
      ({ c9St with fsFiles := fsEraseKey c9St.fsFiles (pathJoin STORAGE_ROOT c9File.path),
                   files := c9St.files.filter (fun g => g.fid ≠ 1) },
       Except.ok ()) :=
  (c9_delete_removes_record_and_object c9St 1 7 Role.admin c9File rfl
    (Or.inl rfl) (by decide)).1

/-! ## Claim C7 — duplicate-content uploads. -/

def c7Folder : FolderRec :=
  { fid := 0, name := "docs", parentFolder := none, path := "docs", depth := 0,
    createdBy := 7, isSystemFolder := false, access := [] }

def c7St2 : St :=
  runOps (initSt [c7Folder] [] [] 1)
    [Op.up 0 "report.pdf" 50 5 7 Role.admin,
     Op.up 0 "report(1).pdf" 60 5 7 Role.admin]

def c7V1 : FileRec :=
  { fid := 1, filename := "report.pdf", originalFilename := "report.pdf",
    path := "docs/report.pdf", size := 5, folder := 0, owner := 7, uploadedBy := 7,
    approvalStatus := ApprovalStatus.approved, approvedBy := some 7, approvedAt := true,
    version := 1, isCurrentVersion := true, previousVersions := [], originalFile := none,
    fileHash := 50, isDeleted := false }

/-- C7 (counterexample): the folder holds `report.pdf` (hash 50) and an
unrelated `report(1).pdf`; re-uploading the byte-identical `report.pdf`
computes the versioned name `report(1).pdf`, hits the filename collision,
and dies with the const-reassignment TypeError — it does not return the
existing record marked as a duplicate, though it still creates no new
record. -/
theorem c7_duplicate_return_not_universal :
    c7V1 ∈ c7St2.files ∧ c7V1.folder = 0 ∧ c7V1.fileHash = 50 ∧ c7V1.isDeleted = false ∧
    (uploadFile c7St2 0 "report.pdf" 50 5 7 Role.admin).2 =
      Except.error "TypeError: Assignment to constant variable" ∧
    (uploadFile c7St2 0 "report.pdf" 50 5 7 Role.admin).1.files = c7St2.files := by
  refine ⟨by decide, rfl, rfl, rfl, rfl, rfl⟩

/-- C7 (amended): when a non-deleted record in the target folder already
carries the uploaded content's hash, the upload never persists a new
record (the file collection is unchanged on every control path), and —
provided the folder exists, the caller has write access, the computed
versioned name is free and no physical file occupies the target path —
the call returns an existing non-deleted same-folder record with that
hash annotated as a duplicate; the only other reachable outcome under a
same-hash record is the collision TypeError, which returns no duplicate
but also creates nothing. -/
theorem c7_duplicate_upload_amended (st : St) (folderId : Nat) (orig : String)
    (content size uploader : Nat) (role : Role) (d : FileRec)
    (hd : d ∈ st.files) (hdf : d.folder = folderId) (hdh : d.fileHash = content)
    (hdel : d.isDeleted = false) :
    (uploadFile st folderId orig content size uploader role).1.files = st.files ∧
    (∀ folder, findFolder st.folders folderId = some folder →
      (role = Role.admin ∨ folder.createdBy = uploader ∨
        (folder.access.any fun a =>
          a.user == uploader && (a.permission == "write" || a.permission == "admin")) = true) →
      (st.files.any fun g => g.folder == folderId &&
        g.filename == generateVersionedName orig (nextVersionOf st.files folderId orig) &&
        !g.isDeleted) = false →
      fsHas st.fsFiles (pathJoin (pathJoin STORAGE_ROOT folder.path)
        (generateVersionedName orig (nextVersionOf st.files folderId orig))) = false →
      ∃ d', (uploadFile st folderId orig content size uploader role).2 =
          Except.ok (UploadOutcome.duplicate d') ∧ d' ∈ st.files ∧ d'.folder = folderId ∧
          d'.fileHash = content ∧ d'.isDeleted = false) := by
  have hpred : (fun g => g.folder == folderId && g.fileHash == content && !g.isDeleted) d
      = true := by
    simp [hdf, hdh, hdel]
  constructor
  · unfold uploadFile
    split
    · rfl
    dsimp only []
    split
    · rfl
    split
    · split <;> rfl
    split
    · split <;> rfl
    split
    · split <;> rfl
    · rename_i heq
      exact absurd hpred (by simpa using List.find?_eq_none.mp heq d hd)
  · intro folder hfo hacc hcol hphys
    unfold uploadFile
    simp only [hfo]
    rw [if_neg (by push_neg; exact hacc)]
    rw [hcol]
    simp only [Bool.false_eq_true, if_false]
    rw [hphys]
    simp only [Bool.false_eq_true, if_false]
    cases hfd : st.files.find?
        (fun g => g.folder == folderId && g.fileHash == content && !g.isDeleted) with
    | none =>
      exact absurd hpred (by simpa using List.find?_eq_none.mp hfd d hd)
    | some du =>
      simp only [hfd]
      have hmem := List.mem_of_find?_eq_some hfd
      have hp := List.find?_some hfd
      simp only [Bool.and_eq_true, beq_iff_eq, Bool.not_eq_true'] at hp
      exact ⟨du, rfl, hmem, hp.1.1, hp.1.2, hp.2⟩

def c7WFile : FileRec :=
  { fid := 1, filename := "report.pdf", originalFilename := "report.pdf",
    path := "docs/report.pdf", size := 5, folder := 0, owner := 7, uploadedBy := 7,
    approvalStatus := ApprovalStatus.approved, approvedBy := some 7, approvedAt := true,
    version := 1, isCurrentVersion := true, previousVersions := [], originalFile := none,
    fileHash := 50, isDeleted := false }

def c7WSt : St :=
  { folders := [c7Folder], files := [c7WFile], dirs := [],
    fsFiles := [("/srv/back-end/storage/docs/report.pdf", 50)], nextId := 2 }

/-- Witness for `c7_duplicate_upload_amended` at a concrete one-record
state: a same-content re-upload leaves the file collection unchanged. -/
theorem c7_duplicate_upload_amended_witness :
    (uploadFile c7WSt 0 "report.pdf" 50 5 7 Role.admin).1.files = c7WSt.files :=
  (c7_duplicate_upload_amended c7WSt 0 "report.pdf" 50 5 7 Role.admin c7WFile
    (by decide) rfl rfl rfl).1

/-! ## Claim C4 — one current version per lineage. -/

/-- Every nonempty `(folder, originalFilename)` lineage of non-deleted
records has exactly one record flagged current. -/
def OneCurrent (files : List FileRec) : Prop :=
  ∀ fo oname, existingVersionsOf files fo oname ≠ [] →
    ((existingVersionsOf files fo oname).filter (fun g => g.isCurrentVersion)).length = 1

/-- Every record's `path` is the save-hook canonical
`folder.path/filename` of an existing folder (true of every record the
upload route persists, since the pre-save hook overwrites `path`). -/
def PathsCanonical (st : St) : Prop :=
  ∀ f ∈ st.files, ∃ fo, findFolder st.folders f.folder = some fo ∧
    f.path = pathJoin fo.path f.filename

/-- Every stored id is below the id counter (ObjectId freshness). -/
def FidsBelow (st : St) : Prop := ∀ f ∈ st.files, f.fid < st.nextId

/-- The inductive invariant carried across upload/restore sequences. -/
def C4Inv (st : St) : Prop := OneCurrent st.files ∧ PathsCanonical st ∧ FidsBelow st

theorem existingVersionsOf_append (l1 l2 : List FileRec) (fo : Nat) (oname : String) :
    existingVersionsOf (l1 ++ l2) fo oname =
      existingVersionsOf l1 fo oname ++ existingVersionsOf l2 fo oname := by
  unfold existingVersionsOf
  exact List.filter_append _ _

theorem existingVersionsOf_singleton_pos (y : FileRec) (fo : Nat) (oname : String)
    (hy : keyP fo oname y = true) : existingVersionsOf [y] fo oname = [y] := by
  unfold existingVersionsOf
  rw [List.filter_cons, if_pos hy]
  rfl

theorem existingVersionsOf_singleton_neg (y : FileRec) (fo : Nat) (oname : String)
    (hy : keyP fo oname y = false) : existingVersionsOf [y] fo oname = [] := by
  unfold existingVersionsOf
  rw [List.filter_cons, if_neg (by simp [hy])]
  rfl

theorem existingVersionsOf_map (files : List FileRec) (φ : FileRec → FileRec)
    (fo : Nat) (oname : String) (hφ : ∀ g, keyP fo oname (φ g) = keyP fo oname g) :
    existingVersionsOf (files.map φ) fo oname = (existingVersionsOf files fo oname).map φ := by
  unfold existingVersionsOf
  induction files with
  | nil => rfl
  | cons g rest ih =>
    rw [List.map_cons, List.filter_cons, List.filter_cons, hφ]
    by_cases hk : keyP fo oname g = true
    · rw [if_pos hk, if_pos hk, List.map_cons, ih]
    · rw [if_neg hk, if_neg hk, ih]

theorem filter_current_all_false (l : List FileRec)
    (h : ∀ g ∈ l, g.isCurrentVersion = false) :
    l.filter (fun g => g.isCurrentVersion) = [] := by
  induction l with
  | nil => rfl
  | cons g rest ih =>
    rw [List.filter_cons, if_neg (by simp [h g (List.mem_cons_self g rest)])]
    exact ih (fun x hx => h x (List.mem_cons_of_mem g hx))

theorem map_id_of_fixed (l : List FileRec) (φ : FileRec → FileRec)
    (h : ∀ g ∈ l, φ g = g) : l.map φ = l := by
  induction l with
  | nil => rfl
  | cons g rest ih =>
    rw [List.map_cons, h g (List.mem_cons_self g rest),
        ih (fun x hx => h x (List.mem_cons_of_mem g hx))]

/-- The demote-then-backfill composite of the upload route preserves the
lineage key of every record. -/
theorem keyP_demote_setPrev (orig : String) (folderId savedFid : Nat) (prev : List Nat)
    (fo : Nat) (oname : String) (g : FileRec) :
    keyP fo oname (setPrev savedFid prev (demoteOthers orig folderId savedFid g))
      = keyP fo oname g := by
  unfold demoteOthers setPrev keyP
  split <;> split <;> rfl

theorem demote_setPrev_path (orig : String) (folderId savedFid : Nat) (prev : List Nat)
    (g : FileRec) :
    (setPrev savedFid prev (demoteOthers orig folderId savedFid g)).path = g.path ∧
    (setPrev savedFid prev (demoteOthers orig folderId savedFid g)).filename = g.filename ∧
    (setPrev savedFid prev (demoteOthers orig folderId savedFid g)).folder = g.folder ∧
    (setPrev savedFid prev (demoteOthers orig folderId savedFid g)).fid = g.fid := by
  unfold demoteOthers setPrev
  split <;> split <;> exact ⟨rfl, rfl, rfl, rfl⟩

/-- With every record path in save-hook canonical form, a restore can
never commit: the copied record re-derives the very path of the restored
version and the unique `path` index rejects it (when the physical copy
has not already failed).  So restores leave the file documents, the
folder documents and the order of the id counter intact. -/
theorem restoreFile_files_unchanged (st : St) (cwd : String) (targetId actor : Nat)
    (role : Role) (hcanon : PathsCanonical st) :
    (restoreFile st cwd targetId actor role).1.files = st.files ∧
    (restoreFile st cwd targetId actor role).1.folders = st.folders ∧
    st.nextId ≤ (restoreFile st cwd targetId actor role).1.nextId := by
  unfold restoreFile
  split
  · exact ⟨rfl, rfl, Nat.le_refl _⟩
  rename_i vR hvR
  dsimp only []
  split
  · exact ⟨rfl, rfl, Nat.le_refl _⟩
  split
  · exact ⟨rfl, rfl, Nat.le_refl _⟩
  rename_i currentVersion hcur
  split
  · exact ⟨rfl, rfl, Nat.le_refl _⟩
  rename_i c hsrc
  split
  · rename_i st2 e hsave
    have he := fileSaveNew_error _ _ _ _ hsave
    refine ⟨he.1, he.2.1, ?_⟩
    have hn : st2.nextId = st.nextId + 1 := he.2.2
    show st.nextId ≤ st2.nextId
    omega
  · rename_i st2 saved hsave
    exfalso
    obtain ⟨fo, hfo, _, _, _, _, hnop⟩ := fileSaveNew_ok _ _ _ _ hsave
    have hvmem : vR ∈ st.files := List.mem_of_find?_eq_some hvR
    obtain ⟨fo', hfo', hvpath⟩ := hcanon vR hvmem
    have hfo2 : findFolder st.folders vR.folder = some fo := hfo
    rw [hfo'] at hfo2
    rw [Option.some.injEq] at hfo2
    subst hfo2
    have hnop2 : (st.files.any fun q => decide (q.path = pathJoin fo'.path vR.filename))
        = false := hnop
    have : (st.files.any fun q => decide (q.path = pathJoin fo'.path vR.filename))
        = true := by
      rw [List.any_eq_true]
      exact ⟨vR, hvmem, by simp [hvpath]⟩
    rw [this] at hnop2
    exact Bool.noConfusion hnop2

theorem demote_setPrev_not_current (orig : String) (folderId savedFid : Nat)
    (prev : List Nat) (x : FileRec)
    (h1 : x.originalFilename = orig) (h2 : x.folder = folderId)
    (h3 : x.fid ≠ savedFid) (h4 : x.isDeleted = false) :
    (setPrev savedFid prev (demoteOthers orig folderId savedFid x)).isCurrentVersion
      = false := by
  have hd : demoteOthers orig folderId savedFid x = { x with isCurrentVersion := false } := by
    unfold demoteOthers
    rw [if_pos (by simp [h1, h2, h3, h4])]
  rw [hd]
  unfold setPrev
  rw [if_neg (by simp [h3])]

theorem demote_setPrev_self (orig : String) (folderId savedFid : Nat)
    (prev : List Nat) (x : FileRec) (hx : x.fid = savedFid) :
    setPrev savedFid prev (demoteOthers orig folderId savedFid x)
      = { x with previousVersions := prev } := by
  have hd : demoteOthers orig folderId savedFid x = x := by
    unfold demoteOthers
    rw [if_neg (by simp [hx])]
  rw [hd]
  unfold setPrev
  rw [if_pos (by simp [hx])]

theorem demote_setPrev_other_key (orig : String) (folderId savedFid : Nat)
    (prev : List Nat) (x : FileRec)
    (hmis : ¬(x.originalFilename = orig ∧ x.folder = folderId))
    (hfid : x.fid ≠ savedFid) :
    setPrev savedFid prev (demoteOthers orig folderId savedFid x) = x := by
  have hd : demoteOthers orig folderId savedFid x = x := by
    unfold demoteOthers
    rw [if_neg (by
      simp only [Bool.and_eq_true, beq_iff_eq, bne_iff_ne, Bool.not_eq_true']
      rintro ⟨⟨⟨ha, hb⟩, _⟩, _⟩
      exact hmis ⟨ha, hb⟩)]
  rw [hd]
  unfold setPrev
  rw [if_neg (by simp [hfid])]

/-- An upload preserves the one-current-per-lineage invariant, the
canonical-path invariant and id freshness, whatever its outcome. -/
theorem uploadFile_preserves_C4Inv (st : St) (folderId : Nat) (orig : String)
    (content size uploader : Nat) (role : Role) (hinv : C4Inv st) :
    C4Inv (uploadFile st folderId orig content size uploader role).1 := by
  obtain ⟨hone, hcanon, hbelow⟩ := hinv
  unfold uploadFile
  split
  · exact ⟨hone, hcanon, hbelow⟩
  rename_i folder hfo0
  dsimp only []
  split
  · exact ⟨hone, hcanon, hbelow⟩
  split
  · split
    · exact ⟨hone, hcanon, hbelow⟩
    · exact ⟨hone, hcanon, hbelow⟩
  split
  · split
    · exact ⟨hone, hcanon, hbelow⟩
    · exact ⟨hone, hcanon, hbelow⟩
  split
  · split
    · exact ⟨hone, hcanon, hbelow⟩
    · exact ⟨hone, hcanon, hbelow⟩
  split
  · -- the save failed: documents unchanged
    rename_i st3 e hsave
    have he := fileSaveNew_error _ _ _ _ hsave
    have hf : st3.files = st.files := by rw [he.1]; split <;> rfl
    have hfo3 : st3.folders = st.folders := by rw [he.2.1]; split <;> rfl
    have hn : st3.nextId = st.nextId + 1 := he.2.2
    refine ⟨?_, ?_, ?_⟩
    · show OneCurrent st3.files
      rw [hf]; exact hone
    · show PathsCanonical st3
      intro f hf2
      rw [hf] at hf2
      obtain ⟨fo2, h1, h2⟩ := hcanon f hf2
      exact ⟨fo2, by rw [hfo3]; exact h1, h2⟩
    · intro f hf2
      rw [hf] at hf2
      have := hbelow f hf2
      show f.fid < st3.nextId
      omega
  · -- the save committed the new record
    rename_i st3 saved hsave
    obtain ⟨fo, hfo, hsdef, hsfiles, hsfolders, hsnext, _⟩ :=
      fileSaveNew_ok _ _ _ _ hsave
    have hsfiles2 : st3.files = st.files ++ [saved] := by rw [hsfiles]; split <;> rfl
    have hsfolders2 : st3.folders = st.folders := by rw [hsfolders]; split <;> rfl
    have hsnext2 : st3.nextId = st.nextId + 1 := hsnext
    have hKfolder : saved.folder = folderId := by rw [hsdef]
    have hKorig : saved.originalFilename = orig := by rw [hsdef]
    have hKdel : saved.isDeleted = false := by rw [hsdef]
    have hKcur : saved.isCurrentVersion = true := by rw [hsdef]
    have hKfid : saved.fid = st.nextId := by rw [hsdef]
    have hKpath : saved.path = pathJoin fo.path saved.filename := by rw [hsdef]
    have hKfo : findFolder st.folders saved.folder = some fo := by
      rw [hKfolder]
      have hSf := hsfolders.symm.trans hsfolders2
      rw [← hSf]
      exact hfo
    have hcanonSaved : ∃ fo2, findFolder st.folders saved.folder = some fo2 ∧
        saved.path = pathJoin fo2.path saved.filename := ⟨fo, hKfo, hKpath⟩
    split
    · -- fresh lineage: the new record is appended with no demotion pass
      rename_i hemp
      have hempty : existingVersionsOf st.files folderId orig = [] :=
        List.isEmpty_iff.mp hemp
      refine ⟨?_, ?_, ?_⟩
      · show OneCurrent st3.files
        rw [hsfiles2]
        intro fo' on' hne
        rw [existingVersionsOf_append] at hne ⊢
        by_cases hk : keyP fo' on' saved = true
        · have hkey : folderId = fo' ∧ orig = on' := by
            unfold keyP at hk
            simp only [Bool.and_eq_true, beq_iff_eq, hKfolder, hKorig] at hk
            exact ⟨hk.1.1, hk.1.2⟩
          obtain ⟨h1, h2⟩ := hkey
          subst h1; subst h2
          have hsingle : existingVersionsOf [saved] folderId orig = [saved] := by
            unfold existingVersionsOf
            rw [List.filter_cons, if_pos hk]
            rfl
          rw [hempty, hsingle]
          simp [hKcur]
        · have hsingle : existingVersionsOf [saved] fo' on' = [] := by
            unfold existingVersionsOf
            rw [List.filter_cons, if_neg hk]
            rfl
          rw [hsingle] at hne ⊢
          rw [List.append_nil] at hne ⊢
          exact hone fo' on' hne
      · show PathsCanonical st3
        intro f hf2
        rw [hsfiles2] at hf2
        rcases List.mem_append.mp hf2 with hold | hnew
        · obtain ⟨fo2, h1, h2⟩ := hcanon f hold
          exact ⟨fo2, by rw [hsfolders2]; exact h1, h2⟩
        · rw [List.mem_singleton] at hnew
          subst hnew
          obtain ⟨fo2, h1, h2⟩ := hcanonSaved
          exact ⟨fo2, by rw [hsfolders2]; exact h1, h2⟩
      · intro f hf2
        rw [hsfiles2] at hf2
        show f.fid < st3.nextId
        rcases List.mem_append.mp hf2 with hold | hnew
        · have := hbelow f hold; omega
        · rw [List.mem_singleton] at hnew
          subst hnew
          omega
    · -- existing lineage: every other member is demoted
      rename_i hemp
      refine ⟨?_, ?_, ?_⟩
      · show OneCurrent ((st3.files.map (demoteOthers orig folderId saved.fid)).map
          (setPrev saved.fid ((existingVersionsOf st.files folderId orig).map (fun g => g.fid))))
        rw [List.map_map, hsfiles2, List.map_append]
        intro fo' on' hne
        rw [existingVersionsOf_append] at hne ⊢
        rw [existingVersionsOf_map st.files _ fo' on'
          (fun g => by
            simpa [Function.comp] using keyP_demote_setPrev orig folderId saved.fid _ fo' on' g)]
          at hne ⊢
        by_cases hk : keyP fo' on' saved = true
        · have hkey : folderId = fo' ∧ orig = on' := by
            unfold keyP at hk
            simp only [Bool.and_eq_true, beq_iff_eq, hKfolder, hKorig] at hk
            exact ⟨hk.1.1, hk.1.2⟩
          obtain ⟨h1, h2⟩ := hkey
          subst h1; subst h2
          have hksave : keyP folderId orig
              ((setPrev saved.fid ((existingVersionsOf st.files folderId orig).map (fun g => g.fid)) ∘
                demoteOthers orig folderId saved.fid) saved) = true := by
            simpa [Function.comp]
              using (keyP_demote_setPrev orig folderId saved.fid _ folderId orig saved).trans hk
          rw [List.map_cons, List.map_nil]
          rw [existingVersionsOf_singleton_pos _ _ _ hksave, List.filter_append]
          have hleft : (((existingVersionsOf st.files folderId orig).map
              (setPrev saved.fid ((existingVersionsOf st.files folderId orig).map (fun g => g.fid)) ∘
                demoteOthers orig folderId saved.fid)).filter (fun g => g.isCurrentVersion)) = [] := by
            apply filter_current_all_false
            intro g hg
            rw [List.mem_map] at hg
            obtain ⟨x, hx, rfl⟩ := hg
            have hx2 := List.mem_filter.mp hx
            have hxkey := hx2.2
            unfold keyP at hxkey
            simp only [Bool.and_eq_true, beq_iff_eq, Bool.not_eq_true'] at hxkey
            have hxlt := hbelow x hx2.1
            show (setPrev saved.fid _ (demoteOthers orig folderId saved.fid x)).isCurrentVersion = false
            apply demote_setPrev_not_current
            · exact hxkey.1.2
            · exact hxkey.1.1
            · omega
            · exact hxkey.2
          rw [hleft, List.nil_append]
          have hself : (setPrev saved.fid ((existingVersionsOf st.files folderId orig).map (fun g => g.fid)) ∘
              demoteOthers orig folderId saved.fid) saved
              = { saved with previousVersions := (existingVersionsOf st.files folderId orig).map (fun g => g.fid) } := by
            simpa [Function.comp] using demote_setPrev_self orig folderId saved.fid
              ((existingVersionsOf st.files folderId orig).map (fun g => g.fid)) saved rfl
          rw [hself]
          rw [List.filter_cons, if_pos (by simp [hKcur])]
          rfl
        · -- an unrelated lineage is untouched
          have hkφ : keyP fo' on'
              ((setPrev saved.fid ((existingVersionsOf st.files folderId orig).map (fun g => g.fid)) ∘
                demoteOthers orig folderId saved.fid) saved) = false := by
            simpa [Function.comp, keyP_demote_setPrev] using Bool.eq_false_iff.mpr hk
          rw [List.map_cons, List.map_nil] at hne ⊢
          rw [existingVersionsOf_singleton_neg _ _ _ hkφ] at hne ⊢
          rw [List.append_nil] at hne ⊢
          have hfixed : (existingVersionsOf st.files fo' on').map
              (setPrev saved.fid ((existingVersionsOf st.files folderId orig).map (fun g => g.fid)) ∘
                demoteOthers orig folderId saved.fid)
              = existingVersionsOf st.files fo' on' := by
            apply map_id_of_fixed
            intro x hx
            have hx2 := List.mem_filter.mp hx
            have hxkey := hx2.2
            unfold keyP at hxkey
            simp only [Bool.and_eq_true, beq_iff_eq, Bool.not_eq_true'] at hxkey
            have hxlt := hbelow x hx2.1
            show setPrev saved.fid _ (demoteOthers orig folderId saved.fid x) = x
            apply demote_setPrev_other_key
            · rintro ⟨ha, hb⟩
              exact hk (by
                unfold keyP
                simp [hKfolder, hKorig, hKdel, ← ha, ← hb, hxkey.1.1, hxkey.1.2])
            · omega
          rw [hfixed] at hne ⊢
          exact hone fo' on' hne
      · show PathsCanonical ({ st3 with files := (st3.files.map (demoteOthers orig folderId saved.fid)).map (setPrev saved.fid ((existingVersionsOf st.files folderId orig).map (fun g => g.fid))) })
        intro f hf2
        have hf3 : f ∈ (st3.files.map (demoteOthers orig folderId saved.fid)).map
            (setPrev saved.fid ((existingVersionsOf st.files folderId orig).map (fun g => g.fid))) := hf2
        rw [List.map_map] at hf3
        rw [List.mem_map] at hf3
        obtain ⟨x, hx, rfl⟩ := hf3
        have hfields := demote_setPrev_path orig folderId saved.fid
          ((existingVersionsOf st.files folderId orig).map (fun g => g.fid)) x
        have hfields2 : ((setPrev saved.fid ((existingVersionsOf st.files folderId orig).map (fun g => g.fid)) ∘
            demoteOthers orig folderId saved.fid) x).path = x.path ∧
            ((setPrev saved.fid ((existingVersionsOf st.files folderId orig).map (fun g => g.fid)) ∘
            demoteOthers orig folderId saved.fid) x).filename = x.filename ∧
            ((setPrev saved.fid ((existingVersionsOf st.files folderId orig).map (fun g => g.fid)) ∘
            demoteOthers orig folderId saved.fid) x).folder = x.folder := by
          exact ⟨hfields.1, hfields.2.1, hfields.2.2.1⟩
        rw [hsfiles2] at hx
        rcases List.mem_append.mp hx with hold | hnew
        · obtain ⟨fo2, h1, h2⟩ := hcanon x hold
          refine ⟨fo2, ?_, ?_⟩
          · rw [hfields2.2.2]
            show findFolder st3.folders x.folder = some fo2
            rw [hsfolders2]
            exact h1
          · rw [hfields2.1, hfields2.2.1]
            exact h2
        · rw [List.mem_singleton] at hnew
          obtain ⟨fo2, h1, h2⟩ := hcanonSaved
          refine ⟨fo2, ?_, ?_⟩
          · rw [hfields2.2.2]
            show findFolder st3.folders x.folder = some fo2
            rw [hsfolders2, hnew]
            exact h1
          · rw [hfields2.1, hfields2.2.1, hnew]
            exact h2
      · intro f hf2
        have hf3 : f ∈ (st3.files.map (demoteOthers orig folderId saved.fid)).map
            (setPrev saved.fid ((existingVersionsOf st.files folderId orig).map (fun g => g.fid))) := hf2
        rw [List.map_map] at hf3
        rw [List.mem_map] at hf3
        obtain ⟨x, hx, rfl⟩ := hf3
        have hfid := (demote_setPrev_path orig folderId saved.fid
          ((existingVersionsOf st.files folderId orig).map (fun g => g.fid)) x).2.2.2
        have hfid2 : ((setPrev saved.fid ((existingVersionsOf st.files folderId orig).map (fun g => g.fid)) ∘
          demoteOthers orig folderId saved.fid) x).fid = x.fid := hfid
        show ((setPrev saved.fid ((existingVersionsOf st.files folderId orig).map (fun g => g.fid)) ∘
          demoteOthers orig folderId saved.fid) x).fid < st3.nextId
        rw [hfid2]
        rw [hsfiles2] at hx
        rcases List.mem_append.mp hx with hold | hnew
        · have := hbelow x hold; omega
        · rw [List.mem_singleton] at hnew
          subst hnew
          omega

/-- A restore attempt preserves the C4 invariant: under canonical paths
it can never commit, so the file collection is untouched. -/
theorem restoreFile_preserves_C4Inv (st : St) (cwd : String) (targetId actor : Nat)
    (role : Role) (hinv : C4Inv st) :
    C4Inv (restoreFile st cwd targetId actor role).1 := by
  obtain ⟨hone, hcanon, hbelow⟩ := hinv
  obtain ⟨hf, hfo, hn⟩ := restoreFile_files_unchanged st cwd targetId actor role hcanon
  refine ⟨?_, ?_, ?_⟩
  · show OneCurrent (restoreFile st cwd targetId actor role).1.files
    rw [hf]; exact hone
  · intro f hmem
    rw [hf] at hmem
    obtain ⟨fo2, h1, h2⟩ := hcanon f hmem
    exact ⟨fo2, by rw [hfo]; exact h1, h2⟩
  · intro f hmem
    rw [hf] at hmem
    have := hbelow f hmem
    omega

/-- A single operation of either kind preserves the C4 invariant. -/
theorem runOp_preserves_C4Inv (st : St) (op : Op) (hinv : C4Inv st) :
    C4Inv (runOp st op) := by
  cases op with
  | up folderId n c sz u r => exact uploadFile_preserves_C4Inv st folderId n c sz u r hinv
  | restore cwd t a r => exact restoreFile_preserves_C4Inv st cwd t a r hinv

/-- Any sequence of operations preserves the C4 invariant. -/
theorem runOps_preserves_C4Inv (ops : List Op) (st : St) (hinv : C4Inv st) :
    C4Inv (runOps st ops) := by
  induction ops generalizing st with
  | nil => exact hinv
  | cons op rest ih =>
    exact ih (runOp st op) (runOp_preserves_C4Inv st op hinv)

/-- C4: at every state reached from a file-free initial state by any
sequence of upload and restore operations, each nonempty
`(folder, originalFilename)` lineage of non-deleted file records has
exactly one record with `isCurrentVersion = true`. -/
theorem c4_one_current_per_lineage (folders : List FolderRec) (dirs : List String)
    (fsFiles : List (String × Nat)) (nextId : Nat) (ops : List Op) :
    OneCurrent (runOps (initSt folders dirs fsFiles nextId) ops).files := by
  have h0 : C4Inv (initSt folders dirs fsFiles nextId) := by
    refine ⟨?_, ?_, ?_⟩
    · intro fo oname hne
      exact absurd rfl hne
    · intro f hf
      exact absurd hf (List.not_mem_nil f)
    · intro f hf
      exact absurd hf (List.not_mem_nil f)
  exact (runOps_preserves_C4Inv ops _ h0).1

end RABC

/-! Sanity examples for the path model (kept as propositions about the
definitions; they double as documentation of Node semantics). -/

example : RABC.pathJoin "/srv/back-end/storage" "docs/a.pdf" = "/srv/back-end/storage/docs/a.pdf" := by decide
example : RABC.pathJoin "/srv/back-end/storage" ".." = "/srv/back-end" := by decide
example : RABC.pathJoin "docs" ".." = "." := by decide
example : RABC.pathJoin "/" "name" = "/name" := by decide
example : RABC.pathJoin "a/b" "../c" = "a/c" := by decide
example : RABC.dirnameStr "docs/report.pdf" = "docs" := by decide
example : RABC.extPair "report.pdf" = ("report", ".pdf") := by decide
example : RABC.extPair ".hidden" = (".hidden", "") := by decide
example : RABC.extPair "a.b.c" = ("a.b", ".c") := by decide
example : RABC.containsStr "ab" "b" = true := by decide
example : RABC.containsStr "a/b/c" "q" = false := by decide
